import Mathlib

/-!
A verification development for the coppa chunk-distribution simulator
(`src/lib.rs`).  The Rust data model and the round engine are embedded
shallowly: machine integers (`usize`) become `Nat` (the source contains no
intentional wrap-around; every subtraction site is either guarded in the
source or noted at its embedding), vectors become `List`, and the seeded
random generator is abstracted as an oracle that produces a permutation at
every shuffle call (the contract of `rand`'s `shuffle`/`choose_multiple`).
Wall-clock measurements (`Instant::now`, `Duration`) are modelled as an
external per-round time oracle, spliced into the `execution_time` fields
after the (time-independent) simulation; panics (`assert!`) become an
`Except` error.
-/

namespace Coppa

/-- `enum Selfishness` from the source. -/
inductive Selfishness
  | Altruistic
  | Selfish
  | Freerider
deriving DecidableEq, Repr, Inhabited

/-- `enum Strategy` from the source (default `RarestFirst`). -/
inductive Strategy
  | RarestFirst
  | MostCommonFirst
  | Uniform
deriving DecidableEq, Repr, Inhabited

/-- `enum Speed` from the source (default `Fast`). -/
inductive Speed
  | Fast
  | Medium
  | Slow
deriving DecidableEq, Repr, Inhabited

/-- `struct PeerConfig`. -/
structure PeerConfig where
  selfishness : Selfishness
  strategy : Strategy
  speed : Speed
deriving DecidableEq, Repr, Inhabited

/-- `struct Config`. -/
structure Config where
  number_chunks : Nat
  number_peers : Nat
  number_seeds : Nat
  chunk_size : Nat
  peer_selfishness : List Selfishness
  peer_strategies : List Strategy
  peer_speeds : List Nat
deriving DecidableEq, Repr, Inhabited

/-- `struct Chunk`. -/
structure Chunk where
  index : Nat
  completion_round : Option Nat
  number_possessing_peers : Nat
deriving DecidableEq, Repr, Inhabited

/-- `struct Download` (an in-flight transfer, shared by source and target). -/
structure Download where
  chunk_number : Nat
  source_peer : Nat
  target_peer : Nat
  downloaded_size : Nat
  current_size : Nat
deriving DecidableEq, Repr, Inhabited

/-- `struct Peer`. -/
structure Peer where
  index : Nat
  selfishness : Selfishness
  strategy : Strategy
  speed : Nat
  completion_round : Option Nat
  possessed_chunks : List Bool
  number_uploads : Nat
  current_uploads : List Download
  current_download : Option Download
deriving DecidableEq, Repr, Inhabited

/-- `struct Distribution` (the `File` wrapper is inlined as the chunk list). -/
structure Distribution where
  chunks : List Chunk
  peers : List Peer
  number_seeds : Nat
  chunk_size : Nat
deriving DecidableEq, Repr, Inhabited

/-- `struct Round`; `execution_time` is the measured wall-clock duration,
modelled as a plain number (nanoseconds). -/
structure Round where
  completed_peers : Nat
  completed_chunks : Nat
  exchanged_chunks : Nat
  execution_time : Nat
deriving DecidableEq, Repr, Inhabited

/-- Equality on `Except` values is decidable componentwise (used to
evaluate concrete runs inside proofs). -/
instance {ε α : Type} [DecidableEq ε] [DecidableEq α] : DecidableEq (Except ε α) := by
  intro a b
  cases a <;> cases b
  case error.error x y =>
    exact if h : x = y then Decidable.isTrue (by rw [h])
      else Decidable.isFalse (by intro hc; cases hc; exact h rfl)
  case ok.ok x y =>
    exact if h : x = y then Decidable.isTrue (by rw [h])
      else Decidable.isFalse (by intro hc; cases hc; exact h rfl)
  case error.ok x y => exact Decidable.isFalse (by intro hc; cases hc)
  case ok.error x y => exact Decidable.isFalse (by intro hc; cases hc)

/-- The observer calls of `RunObserver`, recorded as a list of events in the
order the engine makes them. -/
inductive Event
  | seedChosen
  | chunkSize (n : Nat)
  | roundStart (n : Nat)
  | chunkTransfer (chunk size source target : Nat)
  | peerCompleted (p : Nat)
  | chunkCompleted (c : Nat)
  | roundEnd (n : Nat) (r : Round)
deriving DecidableEq, Repr, Inhabited

/-- The `assert!(desired_size > 0)` on the engine's transfer-continuation
path (line 435 of the source); a panic aborts the whole run. -/
inductive Fault
  | desiredSizeZero (roundNo target chunk source : Nat)
deriving DecidableEq, Repr, Inhabited

/-! ## PeerConfig::from_string -/

/-- `PeerConfig::from_string`: bytes are modelled as their numeric values
(`b's' = 115`, `b'f' = 102`, `b'a' = 97`, `b'r' = 114`, `b'm' = 109`,
`b'u' = 117`); absent bytes take the source's `unwrap_or` defaults. -/
def PeerConfig.from_string (config_string : List Nat) : PeerConfig :=
  let b₀ := config_string.getD 0 97
  let b₁ := config_string.getD 1 114
  let b₂ := config_string.getD 2 102
  let selfishness :=
    if b₀ = 115 then Selfishness.Selfish
    else if b₀ = 102 then Selfishness.Freerider
    else Selfishness.Altruistic
  let strategy :=
    if b₁ = 109 then Strategy.MostCommonFirst
    else if b₁ = 117 then Strategy.Uniform
    else Strategy.RarestFirst
  let speed :=
    if b₂ = 109 then Speed.Medium
    else if b₂ = 115 then Speed.Slow
    else Speed.Fast
  { selfishness := selfishness, strategy := strategy, speed := speed }

/-! ## Config builders

The Rust constructors `assert!` their preconditions; a failed assertion is a
panic, modelled by returning `none`.  The asserts are checked in the order
the source checks them. -/

/-- `Config::assert_common_parameters` as a decidable proposition. -/
def commonParametersOk (number_chunks number_peers number_seeds
    speed_fast speed_medium speed_slow : Nat) : Prop :=
  0 < number_chunks ∧ 0 < number_seeds ∧ number_seeds < number_peers ∧
    0 < speed_slow ∧ speed_slow ≤ speed_medium ∧ speed_medium ≤ speed_fast

instance (a b c d e f : Nat) : Decidable (commonParametersOk a b c d e f) := by
  unfold commonParametersOk; infer_instance

/-- `Config::from_counts` (uniform mode).  Note the source's double
normalization: `speed_fast` is divided by `speed_gcd` at line 188 and the
shadowed value is divided by `speed_gcd` again when `peer_speeds` is built
at line 204. -/
def Config.from_counts (number_chunks number_peers number_seeds
    speed_fast speed_medium speed_slow
    number_selfish number_freeriders : Nat) (strategy : Strategy) :
    Option Config :=
  if commonParametersOk number_chunks number_peers number_seeds
      speed_fast speed_medium speed_slow then
    if number_seeds + number_selfish + number_freeriders ≤ number_peers then
      let speed_gcd := Nat.gcd (Nat.gcd speed_slow speed_medium) speed_fast
      let speed_fast' := speed_fast / speed_gcd
      let speed_medium' := speed_medium / speed_gcd
      let speed_slow' := speed_slow / speed_gcd
      if speed_fast' ≤ 1000 then
        let chunk_size := Nat.lcm (Nat.lcm speed_slow' speed_medium') speed_fast'
        let selfishness :=
          List.replicate (number_peers - number_selfish - number_freeriders)
              Selfishness.Altruistic
            ++ List.replicate number_selfish Selfishness.Selfish
            ++ List.replicate number_freeriders Selfishness.Freerider
        some
          { number_chunks := number_chunks
            number_peers := number_peers
            number_seeds := number_seeds
            chunk_size := chunk_size
            peer_selfishness := selfishness
            peer_strategies := List.replicate number_peers strategy
            peer_speeds := List.replicate number_peers (speed_fast' / speed_gcd) }
      else none
    else none
  else none

/-- `Config::from_peer_config` (explicit mode).  Trailing peers beyond the
descriptor list get `Selfishness::default()` (Altruistic),
`Strategy::default()` (RarestFirst), and `Speed::default()` — which the
source declares to be `Fast`. -/
def Config.from_peer_config (number_chunks number_peers number_seeds
    speed_fast speed_medium speed_slow : Nat) (peer_config : List PeerConfig) :
    Option Config :=
  if commonParametersOk number_chunks number_peers number_seeds
      speed_fast speed_medium speed_slow then
    if peer_config.length ≤ number_peers - number_seeds then
      let speed_gcd := Nat.gcd (Nat.gcd speed_slow speed_medium) speed_fast
      let speed_fast' := speed_fast / speed_gcd
      let speed_medium' := speed_medium / speed_gcd
      let speed_slow' := speed_slow / speed_gcd
      if speed_fast' ≤ 1000 then
        let chunk_size := Nat.lcm (Nat.lcm speed_slow' speed_medium') speed_fast'
        let peer_selfishness :=
          List.replicate number_seeds Selfishness.Altruistic
            ++ peer_config.map PeerConfig.selfishness
            ++ List.replicate
                (number_peers - (number_seeds + peer_config.length))
                Selfishness.Altruistic
        let peer_strategies :=
          List.replicate number_seeds Strategy.RarestFirst
            ++ peer_config.map PeerConfig.strategy
            ++ List.replicate
                (number_peers - (number_seeds + peer_config.length))
                Strategy.RarestFirst
        let peer_speed_tiers :=
          List.replicate number_seeds Speed.Fast
            ++ peer_config.map PeerConfig.speed
            ++ List.replicate
                (number_peers - (number_seeds + peer_config.length))
                Speed.Fast
        let peer_speeds := peer_speed_tiers.map (fun s =>
          match s with
          | Speed.Fast => speed_fast'
          | Speed.Medium => speed_medium'
          | Speed.Slow => speed_slow')
        some
          { number_chunks := number_chunks
            number_peers := number_peers
            number_seeds := number_seeds
            chunk_size := chunk_size
            peer_selfishness := peer_selfishness
            peer_strategies := peer_strategies
            peer_speeds := peer_speeds }
      else none
    else none
  else none

/-! ## Entity constructors and Peer methods -/

/-- `Chunk::new`. -/
def Chunk.new (index number_seeds : Nat) : Chunk :=
  { index := index, completion_round := none,
    number_possessing_peers := number_seeds }

/-- `Peer::new`.  The source asserts `!is_seed || selfishness == Altruistic`;
every `Config` built by the constructors above satisfies it (seeds always
receive `Altruistic`), so the assert is not modelled. -/
def Peer.new (index : Nat) (fileLen : Nat) (is_seed : Bool)
    (selfishness : Selfishness) (strategy : Strategy) (speed : Nat) : Peer :=
  { index := index
    selfishness := selfishness
    strategy := strategy
    speed := speed
    completion_round := if is_seed then some 0 else none
    possessed_chunks := List.replicate fileLen is_seed
    number_uploads := 0
    current_uploads := []
    current_download := none }

/-- List element lookup with the type's default, standing for Rust's
panicking index operator; every index the engine uses is in range for the
states reachable from a valid configuration (the invariant `invB` below). -/
def getPeer (d : Distribution) (i : Nat) : Peer :=
  d.peers.getD i default

/-- Chunk lookup, as `getPeer`. -/
def getChunk (d : Distribution) (c : Nat) : Chunk :=
  d.chunks.getD c default

/-- In-place update of one list element (`v[i] = f(v[i])` in the source);
out-of-range indices leave the list unchanged. -/
def modifyAt (l : List α) (i : Nat) (f : α → α) : List α :=
  match l, i with
  | [], _ => []
  | x :: xs, 0 => f x :: xs
  | x :: xs, Nat.succ j => x :: modifyAt xs j f

/-- Update peer `i` of a distribution. -/
def modifyPeer (d : Distribution) (i : Nat) (f : Peer → Peer) : Distribution :=
  { d with peers := modifyAt d.peers i f }

/-- Update chunk `c` of a distribution. -/
def modifyChunk (d : Distribution) (c : Nat) (f : Chunk → Chunk) : Distribution :=
  { d with chunks := modifyAt d.chunks c f }

/-- The `used_capacity` sum of `available_capacity_for_chunk` (source
lines 305-315): current-round bytes committed to targets other than
`target_peer`. -/
def Peer.usedCapacityExcluding (p : Peer) (target_peer : Nat) : Nat :=
  (p.current_uploads.filterMap (fun u =>
    if u.target_peer = target_peer then none else some u.current_size)).sum

/-- The `allows_download` cooperation-policy gate of
`available_capacity_for_chunk` (source lines 301-302): Altruistic always
serves, Selfish serves only while incomplete, Freerider never serves. -/
def Peer.allowsUpload (p : Peer) : Prop :=
  p.selfishness = Selfishness.Altruistic ∨
    (p.selfishness = Selfishness.Selfish ∧ p.completion_round = none)

instance (p : Peer) : Decidable p.allowsUpload := by
  unfold Peer.allowsUpload; infer_instance

/-- `Peer::available_capacity_for_chunk` (source lines 300-324): the
capacity a prospective source peer can put into a transfer of `chunk_number`
towards `target_peer` this round.  The subtraction is guarded exactly as in
the source (`used_capacity > speed` yields `0`). -/
def Peer.available_capacity_for_chunk (p : Peer) (chunk_number target_peer : Nat) : Nat :=
  if p.allowsUpload ∧ p.possessed_chunks.getD chunk_number false = true then
    if p.speed < p.usedCapacityExcluding target_peer then 0
    else p.speed - p.usedCapacityExcluding target_peer
  else 0

/-- `Peer::index_of_upload`. -/
def Peer.index_of_upload (p : Peer) (chunk_number target_peer : Nat) : Option Nat :=
  p.current_uploads.findIdx? (fun u =>
    u.chunk_number == chunk_number && u.target_peer == target_peer)

/-- `Peer::download`: record (or refresh) an outbound transfer on the
source side. -/
def Peer.recordUpload (p : Peer) (download : Download) : Peer :=
  match p.index_of_upload download.chunk_number download.target_peer with
  | some i => { p with current_uploads := p.current_uploads.set i download }
  | none => { p with current_uploads := p.current_uploads ++ [download] }

/-- `Peer::chunk_upload_finished`. -/
def Peer.chunk_upload_finished (p : Peer) (chunk_number target_peer : Nat) : Peer :=
  match p.index_of_upload chunk_number target_peer with
  | some i =>
    { p with number_uploads := p.number_uploads + 1,
             current_uploads := p.current_uploads.eraseIdx i }
  | none => p

/-- `Peer::check_chunk_download_finished`: returns the updated peer and the
finished download, if any. -/
def Peer.check_chunk_download_finished (p : Peer) (chunk_size : Nat) :
    Peer × Option Download :=
  match p.current_download with
  | some download =>
    if chunk_size ≤ download.downloaded_size then
      ({ p with
          possessed_chunks := p.possessed_chunks.set download.chunk_number true,
          current_download := none }, some download)
    else (p, none)
  | none => (p, none)

/-- `Distribution::new`. -/
def Distribution.new (config : Config) : Distribution :=
  let chunks := (List.range config.number_chunks).map
    (fun i => Chunk.new i config.number_seeds)
  let peers := (List.range config.number_peers).map (fun i =>
    Peer.new i config.number_chunks (decide (i < config.number_seeds))
      (config.peer_selfishness.getD i default)
      (config.peer_strategies.getD i default)
      (config.peer_speeds.getD i default))
  { chunks := chunks, peers := peers,
    number_seeds := config.number_seeds, chunk_size := config.chunk_size }

/-- `Distribution::desired_download_capacity`. -/
def desired_download_capacity (d : Distribution)
    (chunk_number source_peer target_peer : Nat) : Nat :=
  let upload_capacity :=
    (getPeer d source_peer).available_capacity_for_chunk chunk_number target_peer
  let target_speed := (getPeer d target_peer).speed
  min target_speed upload_capacity

/-! ## The random-shuffle oracle

`Distribution::run` draws randomness only through `shuffle` and
`choose_multiple` (the latter with the full slice length, i.e. a random
permutation).  Both are abstracted as an oracle of type `Shuffler`; the
engine constrains every answer to be a permutation of the question, which
is the contract `rand` guarantees. -/

structure Shuffler (σ : Type) where
  shuf : σ → List Nat → List Nat × σ

/-- One oracle shuffle call; an answer that is not a permutation of the
input (impossible for the real generator) is discarded. -/
def applyShuffle (S : Shuffler σ) (ρ : σ) (l : List Nat) : List Nat × σ :=
  let a := S.shuf ρ l
  (if List.Perm a.1 l then a.1 else l, a.2)

/-- The identity oracle: every shuffle leaves its input in place.  Used to
drive concrete runs. -/
def idShuffler : Shuffler Unit :=
  { shuf := fun ρ l => (l, ρ) }

/-- A scripted oracle: each call pops the next answer from the script; an
exhausted script answers with the input itself. -/
def scriptShuffler : Shuffler (List (List Nat)) :=
  { shuf := fun ρ l =>
      match ρ with
      | [] => (l, [])
      | p :: rest => (p, rest) }

/-! ## The round engine

`Distribution::run` (source lines 398-524), split into its phases so that
statements can speak about each one.  `Sim σ` is the loop state: the
distribution, the two persistent index vectors `shuffled_peers` and
`temporary_chunks`, the oracle state, the accumulated `Round` snapshots,
the running `current_round`, and the observer-event log.  Wall-clock time
is not consumed by any scheduling decision in the source, so the engine
leaves every `execution_time` at `0`; `withTimes` below splices a time
oracle's measurements into the snapshots afterwards. -/

structure Sim (σ : Type) where
  dist : Distribution
  shuffled : List Nat
  temp : List Nat
  rho : σ
  rounds : List Round
  current : Round
  events : List Event
deriving Repr, DecidableEq, Inhabited

/-- `temporary_chunks.sort_by_key(|c| chunks[c].number_possessing_peers)`:
Rust's `sort_by_key` is stable, and a stable sort by key is unique, so a
stable insertion sort is an exact embedding. -/
def insertByKey (key : Nat → Nat) (x : Nat) : List Nat → List Nat
  | [] => [x]
  | y :: ys => if key x ≤ key y then x :: y :: ys else y :: insertByKey key x ys

/-- Stable sort by key (see `insertByKey`). -/
def sortByKey (key : Nat → Nat) : List Nat → List Nat
  | [] => []
  | x :: xs => insertByKey key x (sortByKey key xs)

/-- Split off the maximal leading run of entries whose key equals `k`. -/
def takeRun (key : Nat → Nat) (k : Nat) : List Nat → List Nat × List Nat
  | [] => ([], [])
  | x :: xs =>
    if key x = k then
      let r := takeRun key k xs
      (x :: r.1, r.2)
    else ([], x :: xs)

theorem takeRun_snd_length_le (key : Nat → Nat) (k : Nat) :
    ∀ l : List Nat, (takeRun key k l).2.length ≤ l.length := by
  intro l
  induction l with
  | nil => simp [takeRun]
  | cons x xs ih =>
    simp only [takeRun]
    split
    · simpa using Nat.le_succ_of_le ih
    · simp

/-- The recursion of `randomizeChunks`, made structural over a fuel bound
on the list length so that the kernel can evaluate it (each step consumes
at least the head element, so any `fuel ≥ length` gives the same result). -/
def randomizeChunksFuel (S : Shuffler σ) (key : Nat → Nat) :
    Nat → σ → List Nat → List Nat × σ
  | _, ρ, [] => ([], ρ)
  | 0, ρ, l => (l, ρ)
  | Nat.succ fuel, ρ, x :: xs =>
    let r := takeRun key (key x) xs
    let g := if r.1.isEmpty then (x :: r.1, ρ) else applyShuffle S ρ (x :: r.1)
    let rest := randomizeChunksFuel S key fuel g.2 r.2
    (g.1 ++ rest.1, rest.2)

/-- `Distribution::randomize_chunks` (source lines 526-545): walk the
already count-sorted chunk list, and shuffle in place every maximal run of
chunks sharing a possession count; runs of length 1 make no oracle call.
The source's loop is only reached with a non-empty chunk list
(`number_chunks > 0` is asserted), where the two formulations agree. -/
def randomizeChunks (S : Shuffler σ) (key : Nat → Nat) (ρ : σ)
    (l : List Nat) : List Nat × σ :=
  randomizeChunksFuel S key l.length ρ l

/-- The source-search half of the `'chunk_search` loop: try candidate
sources in order, committing to the first with a positive deliverable
capacity (`desired_capacity == 0 → continue`). -/
def findSource (d : Distribution) (target chunkIdx : Nat) :
    List Nat → Option (Nat × Nat)
  | [] => none
  | s :: rest =>
    let cap := desired_download_capacity d chunkIdx s target
    if cap = 0 then findSource d target chunkIdx rest else some (s, cap)

/-- The `'chunk_search` loop (source lines 457-491, search half): iterate
candidate chunks, skipping those the target already possesses; for each,
search the sources; stop at the first committed pair.  Returns
`(chunk, source, amount)`. -/
def chunkSearch (d : Distribution) (target : Nat) :
    List Nat → List Nat → Option (Nat × Nat × Nat)
  | [], _ => none
  | c :: cs, sources =>
    if (getPeer d target).possessed_chunks.getD c false then
      chunkSearch d target cs sources
    else
      match findSource d target c sources with
      | some (s, cap) => some (c, s, cap)
      | none => chunkSearch d target cs sources

/-- Commit a freshly found transfer: build the `Download` record and attach
it to the target (`current_download`) and the source (`current_uploads`),
in the source's order. -/
def commitDownload (d : Distribution) (target chunkIdx source cap : Nat) :
    Distribution :=
  let download : Download :=
    { chunk_number := chunkIdx, source_peer := source, target_peer := target,
      downloaded_size := cap, current_size := cap }
  let d₁ := modifyPeer d target (fun p => { p with current_download := some download })
  modifyPeer d₁ source (fun p => p.recordUpload download)

/-- One iteration of the engine's per-peer scheduling loop (source lines
423-491) for peer `i`.  Threads the exchanged-transfer counter. -/
def schedulePeer (S : Shuffler σ) (st : Sim σ) (exch : Nat) (i : Nat) :
    Except Fault (Sim σ × Nat) :=
  if (getPeer st.dist i).completion_round.isSome then Except.ok (st, exch)
  else
    match (getPeer st.dist i).current_download with
    | some download =>
      let desired_capacity :=
        desired_download_capacity st.dist download.chunk_number download.source_peer i
      let remaining_size := st.dist.chunk_size - download.downloaded_size
      let desired_size := min desired_capacity remaining_size
      if desired_size = 0 then
        Except.error (Fault.desiredSizeZero st.rounds.length i
          download.chunk_number download.source_peer)
      else
        let ev := Event.chunkTransfer download.chunk_number desired_size
          download.source_peer download.target_peer
        let download' := { download with
          current_size := desired_size,
          downloaded_size := download.downloaded_size + desired_size }
        let d₁ := modifyPeer st.dist i
          (fun q => { q with current_download := some download' })
        let d₂ := modifyPeer d₁ download.source_peer
          (fun q => q.recordUpload download')
        Except.ok ({ st with dist := d₂, events := st.events ++ [ev] }, exch)
    | none =>
      let key := fun c => (getChunk st.dist c).number_possessing_peers
      let tr := randomizeChunks S key st.rho st.temp
      let ord :=
        match (getPeer st.dist i).strategy with
        | Strategy.RarestFirst => (tr.1, tr.2)
        | Strategy.MostCommonFirst => (tr.1.reverse, tr.2)
        | Strategy.Uniform => applyShuffle S tr.2 tr.1
      let sources := st.shuffled.drop st.dist.number_seeds
        ++ st.shuffled.take st.dist.number_seeds
      match chunkSearch st.dist i ord.1 sources with
      | some (c, s, cap) =>
        let ev := Event.chunkTransfer c cap s i
        Except.ok ({ st with
          dist := commitDownload st.dist i c s cap,
          temp := tr.1, rho := ord.2,
          events := st.events ++ [ev] }, exch + 1)
      | none =>
        Except.ok ({ st with temp := tr.1, rho := ord.2 }, exch)

/-- The whole per-peer scheduling loop over the shuffled non-seed order. -/
def schedulePeers (S : Shuffler σ) : List Nat → Sim σ → Nat →
    Except Fault (Sim σ × Nat)
  | [], st, exch => Except.ok (st, exch)
  | i :: rest, st, exch =>
    match schedulePeer S st exch i with
    | Except.error e => Except.error e
    | Except.ok (st', exch') => schedulePeers S rest st' exch'

/-- The completion sweep over one peer (body of source lines 494-510):
returns the updated peer and chunk list, the bookkeeping deltas, new
events, and the finished download if any.  `roundNo` is `rounds.len()` at
sweep time. -/
def sweepOne (chunk_size nPeers roundNo : Nat) (p : Peer) (chunks : List Chunk) :
    Peer × List Chunk × List Event × List Download × Nat × Nat :=
  let ck := p.check_chunk_download_finished chunk_size
  match ck.2 with
  | some download =>
    let chunks₁ := modifyAt chunks download.chunk_number
      (fun c => { c with number_possessing_peers := c.number_possessing_peers + 1 })
    let cnt := (chunks₁.getD download.chunk_number default).number_possessing_peers
    let cdone :=
      if cnt = nPeers then
        (modifyAt chunks₁ download.chunk_number
            (fun c => { c with completion_round := some roundNo }),
          [Event.chunkCompleted
            ((chunks₁.getD download.chunk_number default).index)], 1)
      else (chunks₁, ([] : List Event), 0)
    let pdone :=
      if ck.1.possessed_chunks.all (fun b => b) then
        ({ ck.1 with completion_round := some roundNo },
          [Event.peerCompleted ck.1.index], 1)
      else (ck.1, ([] : List Event), 0)
    (pdone.1, cdone.1, cdone.2.1 ++ pdone.2.1, [download], pdone.2.2, cdone.2.2)
  | none => (ck.1, chunks, [], [], 0, 0)

/-- The completion sweep over the whole peer list, in storage (index)
order. -/
def sweepGo (chunk_size nPeers roundNo : Nat) :
    List Peer → List Chunk →
    List Peer × List Chunk × List Event × List Download × Nat × Nat
  | [], chunks => ([], chunks, [], [], 0, 0)
  | p :: ps, chunks =>
    let a := sweepOne chunk_size nPeers roundNo p chunks
    let b := sweepGo chunk_size nPeers roundNo ps a.2.1
    (a.1 :: b.1, b.2.1, a.2.2.1 ++ b.2.2.1, a.2.2.2.1 ++ b.2.2.2.1,
      a.2.2.2.2.1 + b.2.2.2.2.1, a.2.2.2.2.2 + b.2.2.2.2.2)

/-- Step 4 of the round: the completion sweep (source lines 493-510). -/
def sweepPhase (st : Sim σ) : Sim σ × List Download × Nat × Nat :=
  let a := sweepGo st.dist.chunk_size st.dist.peers.length st.rounds.length
    st.dist.peers st.dist.chunks
  ({ st with
      dist := { st.dist with peers := a.1, chunks := a.2.1 },
      events := st.events ++ a.2.2.1 }, a.2.2.2.1, a.2.2.2.2.1, a.2.2.2.2.2)

/-- Step 5 of the round: source bookkeeping for every finished upload
(source lines 511-514). -/
def bookkeepPhase (st : Sim σ) (finished : List Download) : Sim σ :=
  { st with dist := finished.foldl (fun d u =>
      modifyPeer d u.source_peer
        (fun p => p.chunk_upload_finished u.chunk_number u.target_peer)) st.dist }

/-- `Round::new`. -/
def Round.new (previous_round : Round) : Round :=
  { completed_peers := previous_round.completed_peers
    completed_chunks := previous_round.completed_chunks
    exchanged_chunks := 0
    execution_time := 0 }

/-- Steps 1-3 of a round (source lines 415-491): the round-start event, the
two segment shuffles, the stable rarity sort, and the per-peer scheduling
loop.  Returns the scheduled state and the exchanged-transfer count. -/
def roundScheduled (S : Shuffler σ) (st : Sim σ) : Except Fault (Sim σ × Nat) :=
  let roundNo := st.rounds.length
  let st₀ := { st with events := st.events ++ [Event.roundStart roundNo] }
  let seeds := st₀.dist.number_seeds
  let a := applyShuffle S st₀.rho (st₀.shuffled.take seeds)
  let b := applyShuffle S a.2 (st₀.shuffled.drop seeds)
  let shuffled' := a.1 ++ b.1
  let key := fun c => (getChunk st₀.dist c).number_possessing_peers
  let temp' := sortByKey key st₀.temp
  schedulePeers S (shuffled'.drop seeds)
    { st₀ with shuffled := shuffled', temp := temp', rho := b.2 } 0

/-- Steps 4-6 of a round (source lines 493-521): completion sweep, source
bookkeeping, and statistics (the new snapshot is appended, `current_round`
becomes its `Round::new` copy). -/
def roundFinish (st₁ : Sim σ) (exchanged : Nat) : Sim σ :=
  let roundNo := st₁.rounds.length
  let sw := sweepPhase st₁
  let st₃ := bookkeepPhase sw.1 sw.2.1
  let newRound : Round :=
    { completed_peers := st₃.current.completed_peers + sw.2.2.1
      completed_chunks := st₃.current.completed_chunks + sw.2.2.2
      exchanged_chunks := exchanged
      execution_time := 0 }
  { st₃ with
    rounds := st₃.rounds ++ [newRound],
    current := Round.new newRound,
    events := st₃.events ++ [Event.roundEnd roundNo newRound] }

/-- One iteration of the engine's `while` loop (source lines 414-522). -/
def roundStep (S : Shuffler σ) (st : Sim σ) : Except Fault (Sim σ) :=
  match roundScheduled S st with
  | Except.error e => Except.error e
  | Except.ok (st₁, exchanged) => Except.ok (roundFinish st₁ exchanged)

/-- The engine's `while current_round.completed_peers < peers.len()` loop,
with explicit fuel.  Out of fuel, the current (possibly unconverged) state
is returned; `loopDone` below distinguishes the two cases. -/
def runLoop (S : Shuffler σ) : Nat → Sim σ → Except Fault (Sim σ)
  | 0, st => Except.ok st
  | Nat.succ fuel, st =>
    if st.current.completed_peers < st.dist.peers.length then
      match roundStep S st with
      | Except.error e => Except.error e
      | Except.ok st' => runLoop S fuel st'
    else Except.ok st

/-- The loop guard is false: every peer has a recorded completion. -/
def loopDone (st : Sim σ) : Prop :=
  ¬ st.current.completed_peers < st.dist.peers.length

instance (st : Sim σ) : Decidable (loopDone st) := by
  unfold loopDone; infer_instance

/-- The prologue of `Distribution::run` (source lines 398-413): the seed
and chunk-size events, the initial pre-round snapshot, and the two
persistent index vectors. -/
def initSim (config : Config) (ρ : σ) : Sim σ :=
  let d := Distribution.new config
  let initial : Round :=
    { completed_peers := d.number_seeds, completed_chunks := 0,
      exchanged_chunks := 0, execution_time := 0 }
  { dist := d
    shuffled := List.range d.peers.length
    temp := List.range d.chunks.length
    rho := ρ
    rounds := [initial]
    current := initial
    events := [Event.seedChosen, Event.chunkSize d.chunk_size] }

/-- A run from a configuration: returns the `Round`-snapshot sequence and
the observer-event log, or the fault that aborted the run.  All
`execution_time` fields are `0` here; see `withTimes`. -/
def simulate (S : Shuffler σ) (ρ : σ) (config : Config) (fuel : Nat) :
    Except Fault (List Round × List Event) :=
  match runLoop S fuel (initSim config ρ) with
  | Except.error e => Except.error e
  | Except.ok st => Except.ok (st.rounds, st.events)

/-- Helper for `withTimesRounds`: splice starting at position `k`. -/
def withTimesGo (time : Nat → Nat) (k : Nat) : List Round → List Round
  | [] => []
  | r :: rs =>
    (if k = 0 then r else { r with execution_time := time k })
      :: withTimesGo time (k + 1) rs

/-- Splice a wall-clock oracle into a snapshot list: round `k`'s snapshot
(the entry at position `k`, the initial pre-round snapshot being position
`0`) records the time measured during round `k`. -/
def withTimesRounds (time : Nat → Nat) (rounds : List Round) : List Round :=
  withTimesGo time 0 rounds

/-- Splice a wall-clock oracle into the event log (`round_end` carries the
snapshot). -/
def withTimesEvents (time : Nat → Nat) (events : List Event) : List Event :=
  events.map (fun e =>
    match e with
    | Event.roundEnd n r => Event.roundEnd n { r with execution_time := time n }
    | e => e)

/-- `Distribution::run` including the wall-clock measurements: the time
oracle gives the duration measured for each round.  The source only ever
stores these durations (`start_time.elapsed()`), it never reads them, so a
run with times is the time-free run with the measurements spliced into the
snapshots and the `round_end` events. -/
def simulateT (S : Shuffler σ) (ρ : σ) (time : Nat → Nat) (config : Config)
    (fuel : Nat) : Except Fault (List Round × List Event) :=
  match simulate S ρ config fuel with
  | Except.error e => Except.error e
  | Except.ok (rounds, events) =>
    Except.ok (withTimesRounds time rounds, withTimesEvents time events)

/-! ## Time erasure -/

/-- Zero the wall-clock field of a snapshot. -/
def eraseTimeRound (r : Round) : Round :=
  { r with execution_time := 0 }

/-- Zero the wall-clock field inside a `round_end` event. -/
def eraseTimeEvent : Event → Event
  | Event.roundEnd n r => Event.roundEnd n (eraseTimeRound r)
  | e => e

/-- Erase every wall-clock measurement from a run's outputs. -/
def eraseTimes (x : Except Fault (List Round × List Event)) :
    Except Fault (List Round × List Event) :=
  x.map (fun p => (p.1.map eraseTimeRound, p.2.map eraseTimeEvent))

theorem withTimesGo_erase (time : Nat → Nat) (k : Nat) (rs : List Round) :
    (withTimesGo time k rs).map eraseTimeRound = rs.map eraseTimeRound := by
  induction rs generalizing k with
  | nil => rfl
  | cons r rs ih =>
    simp only [withTimesGo, List.map_cons, ih]
    split <;> rfl

theorem withTimesEvents_erase (time : Nat → Nat) (es : List Event) :
    (withTimesEvents time es).map eraseTimeEvent = es.map eraseTimeEvent := by
  induction es with
  | nil => rfl
  | cons e es ih =>
    simp only [withTimesEvents, List.map_cons] at ih ⊢
    cases e <;> simp [eraseTimeEvent, eraseTimeRound, ih]

/-! ## Concrete runs used as counterexamples and failing inputs -/

/-- The failing configuration for the continuation-positivity assertion:
2 chunks, 3 peers, 1 seed, speed tiers (2, 2, 1), peer 1 Selfish and fast,
peer 2 Altruistic and slow (descriptor strings `s` and `ars`). -/
def c2Descriptors : List PeerConfig :=
  [PeerConfig.from_string [115], PeerConfig.from_string [97, 114, 115]]

/-- The configuration the descriptors above produce. -/
def c2Config : Config :=
  (Config.from_peer_config 2 3 1 2 2 1 c2Descriptors).getD default

/-- The engine state after two rounds of the failing run (identity
shuffles throughout). -/
def c2St2 : Sim Unit :=
  ((runLoop idShuffler 2 (initSim c2Config ())).toOption).getD default

/-- Descriptors of the five-peer run in which a Selfish peer's upload
counter is incremented after its completion round is recorded: peer 1
Selfish fast (`s`), peer 2 Altruistic most-common-first slow (`ams`),
peers 3 and 4 Altruistic rarest-first medium (`arm`). -/
def c8Descriptors : List PeerConfig :=
  [PeerConfig.from_string [115], PeerConfig.from_string [97, 109, 115],
   PeerConfig.from_string [97, 114, 109], PeerConfig.from_string [97, 114, 109]]

/-- The configuration the descriptors above produce (2 chunks, 5 peers,
1 seed, speed tiers (4, 2, 1)). -/
def c8Config : Config :=
  (Config.from_peer_config 2 5 1 4 2 1 c8Descriptors).getD default

/-- The shuffle answers driving the five-peer run: identity everywhere
except the non-seed order of rounds 2 and 3. -/
def c8Script : List (List Nat) :=
  [[0], [1, 2, 3, 4], [0, 1], [0, 1], [0, 1], [0, 1],
   [0], [3, 4, 2, 1], [0], [1, 2, 3, 4]]

/-- The five-peer run's state after four rounds. -/
def c8St4 : Sim (List (List Nat)) :=
  ((runLoop scriptShuffler 4 (initSim c8Config c8Script)).toOption).getD default

/-- The five-peer run's state after the scheduling phase of round 5. -/
def c8Sched : Sim (List (List Nat)) × Nat :=
  ((roundScheduled scriptShuffler c8St4).toOption).getD default

/-- The tiny configuration of the determinism counterexample: 1 chunk,
2 peers, 1 seed, all speeds 1. -/
def c3Config : Config :=
  (Config.from_counts 1 2 1 1 1 1 0 0 Strategy.RarestFirst).getD default

/-! ## Claim C2 — the continuation-positivity assertion is reachable

A Selfish source can record its completion round while an upload of its is
still in flight; the next round, the target's continuation computes
capacity 0 from it and the engine's `assert!(desired_size > 0)` fires. -/

/-- C2: the positivity invariant on the continuation path is violated by
the code.  From the valid configuration `c2Config` (2 chunks, 3 peers,
seed speed 2, Selfish fast peer 1, Altruistic slow peer 2), with every
shuffle answering in place: after round 2 the Selfish peer 1 has recorded
completion round 2 while still holding peer 2's in-flight download of
chunk 0, its capacity for that transfer is 0, and round 3 aborts on the
assertion with a zero deliverable amount. -/
theorem continuation_positivity_assertion_reachable :
    Config.from_peer_config 2 3 1 2 2 1 c2Descriptors = some c2Config
    ∧ runLoop idShuffler 2 (initSim c2Config ()) = Except.ok c2St2
    ∧ (getPeer c2St2.dist 1).selfishness = Selfishness.Selfish
    ∧ (getPeer c2St2.dist 1).completion_round = some 2
    ∧ (getPeer c2St2.dist 2).current_download =
        some { chunk_number := 0, source_peer := 1, target_peer := 2,
               downloaded_size := 1, current_size := 1 }
    ∧ (getPeer c2St2.dist 1).available_capacity_for_chunk 0 2 = 0
    ∧ roundStep idShuffler c2St2 = Except.error (Fault.desiredSizeZero 3 2 0 1) := by
  decide

/-! ## Claim C5 — the run can abort instead of terminating complete

Same failing input as C2: the run never reaches the all-peers-complete
state; it aborts on the positivity assertion in round 3, well within the
claimed bound of total-bytes-to-deliver / minimum-positive-speed = 8
rounds. -/

/-- C5: on the valid configuration `c2Config` the round loop does not stop
with every peer holding a completion round: given the budget the claim
itself grants (2 chunks x chunk size 2 x 2 non-seed peers / minimum speed
1 = 8 rounds), the run aborts with the round-3 assertion failure. -/
theorem run_aborts_within_claimed_bound :
    Config.from_peer_config 2 3 1 2 2 1 c2Descriptors = some c2Config
    ∧ c2Config.peer_speeds = [2, 2, 1]
    ∧ c2Config.number_chunks * c2Config.chunk_size *
        (c2Config.number_peers - c2Config.number_seeds) / 1 = 8
    ∧ simulate idShuffler () c2Config 8 =
        Except.error (Fault.desiredSizeZero 3 2 0 1) := by
  decide

/-! ## Claim C6 — uniform mode divides the fast tier by the gcd twice

`from_counts` shadows `speed_fast` with `speed_fast / speed_gcd` (line 188)
and then builds `peer_speeds` from `speed_fast / speed_gcd` again
(line 204).  With tiers (4, 4, 4) the gcd is 4, the normalized fast tier is
1, and every peer receives speed 1 / 4 = 0. -/

/-- C6: at the precondition-satisfying input (1 chunk, 2 peers, 1 seed,
tiers (4, 4, 4), no selfish, no freeriders) every peer's speed is 0, not
the normalized fast tier 4 / gcd = 1, and in particular not positive. -/
theorem from_counts_speed_divided_twice :
    (Config.from_counts 1 2 1 4 4 4 0 0 Strategy.RarestFirst).map
        Config.peer_speeds = some [0, 0]
    ∧ 4 / Nat.gcd (Nat.gcd 4 4) 4 = 1
    ∧ (0 : Nat) ≠ 1
    ∧ ¬ 0 < (0 : Nat) := by
  decide

/-! ## Claim C7 — trailing peers get the fast tier, not the slow tier

`Speed::default()` is `Fast` in the source, so unfilled trailing peers of
`from_peer_config` receive the normalized fast speed. -/

/-- C7 counterexample: with 3 peers, 1 seed, tiers (2, 2, 1) and an empty
descriptor list, both unfilled trailing peers receive speed 2 (the
normalized fast tier), not the normalized slow tier 1 the claim
prescribes. -/
theorem from_peer_config_trailing_speed_is_fast :
    (Config.from_peer_config 1 3 1 2 2 1 []).map Config.peer_speeds =
        some [2, 2, 2]
    ∧ 1 / Nat.gcd (Nat.gcd 1 2) 2 = 1
    ∧ (2 : Nat) ≠ 1 := by
  decide

/-! ## Claim C3 — snapshots are not bit-for-bit identical across runs

`execution_time` records `Instant::now().elapsed()`, a wall-clock
measurement that differs between two independent runs of the same seed and
configuration.  Every other bit of the outputs is reproducible. -/

/-- C3 counterexample: two runs of the same valid configuration and the
same shuffle oracle, whose wall-clock oracles differ (one measures 0, the
other 7 for every round), produce different `Round`-snapshot sequences. -/
theorem snapshots_differ_across_runs_walltime :
    Config.from_counts 1 2 1 1 1 1 0 0 Strategy.RarestFirst = some c3Config
    ∧ (simulateT idShuffler () (fun _ => 0) c3Config 4).toOption.map Prod.fst ≠
        (simulateT idShuffler () (fun _ => 7) c3Config 4).toOption.map Prod.fst := by
  refine ⟨by decide, ?_⟩
  decide

/-- C3 amended: with the wall-clock measurements erased, a run is a pure
function of the configuration and the shuffle oracle: for any two time
oracles, the snapshot sequences and event logs agree in every other
field. -/
theorem run_reproducible_modulo_walltime {σ : Type} (S : Shuffler σ) (ρ : σ)
    (t t' : Nat → Nat) (config : Config) (fuel : Nat) :
    eraseTimes (simulateT S ρ t config fuel) =
      eraseTimes (simulateT S ρ t' config fuel) := by
  unfold simulateT
  cases h : simulate S ρ config fuel with
  | error e => rfl
  | ok p =>
    simp only [eraseTimes, Except.map, withTimesRounds,
      withTimesGo_erase, withTimesEvents_erase]

/-! ## Claim C9 — PeerConfig::from_string resolves bytes as specified -/

/-- C9: `from_string` is total (it is a Lean function) and resolves each
position by the specified byte table, with the specified defaults for
absent or unrecognized bytes (`s` = 115, `f` = 102, `m` = 109,
`u` = 117). -/
theorem from_string_byte_table (l : List Nat) :
    ((PeerConfig.from_string l).selfishness = Selfishness.Selfish ↔
        l.get? 0 = some 115)
    ∧ ((PeerConfig.from_string l).selfishness = Selfishness.Freerider ↔
        l.get? 0 = some 102)
    ∧ ((PeerConfig.from_string l).selfishness = Selfishness.Altruistic ↔
        (l.get? 0 ≠ some 115 ∧ l.get? 0 ≠ some 102))
    ∧ ((PeerConfig.from_string l).strategy = Strategy.MostCommonFirst ↔
        l.get? 1 = some 109)
    ∧ ((PeerConfig.from_string l).strategy = Strategy.Uniform ↔
        l.get? 1 = some 117)
    ∧ ((PeerConfig.from_string l).strategy = Strategy.RarestFirst ↔
        (l.get? 1 ≠ some 109 ∧ l.get? 1 ≠ some 117))
    ∧ ((PeerConfig.from_string l).speed = Speed.Medium ↔
        l.get? 2 = some 109)
    ∧ ((PeerConfig.from_string l).speed = Speed.Slow ↔
        l.get? 2 = some 115)
    ∧ ((PeerConfig.from_string l).speed = Speed.Fast ↔
        (l.get? 2 ≠ some 109 ∧ l.get? 2 ≠ some 115)) := by
  have hgd : ∀ (n d : Nat), l.getD n d = (l.get? n).getD d := by
    intro n d
    simp [List.getD_eq_getElem?_getD, List.get?_eq_getElem?]
  rcases h0 : l.get? 0 with _ | b0 <;> rcases h1 : l.get? 1 with _ | b1 <;>
    rcases h2 : l.get? 2 with _ | b2 <;>
    simp only [PeerConfig.from_string, hgd, h0, h1, h2, Option.getD_some,
      Option.getD_none] <;>
    refine ⟨?_, ?_, ?_, ?_, ?_, ?_, ?_, ?_, ?_⟩ <;>
    split_ifs <;> simp_all

/-! ## Claim C10 — available_capacity_for_chunk is total and clamped -/

/-- C10: for an in-range chunk index, the capacity computation never
underflows: when the bytes committed to other targets exceed the peer's
speed it returns 0 (rather than panicking or wrapping), it returns 0
whenever the cooperation policy forbids serving or the chunk is not
possessed, and otherwise it is exactly the integer difference clamped at
0; in all cases the result is at most the peer's speed. -/
theorem available_capacity_total_and_clamped (p : Peer) (c t : Nat)
    (hc : c < p.possessed_chunks.length) :
    p.available_capacity_for_chunk c t ≤ p.speed
    ∧ (p.speed < p.usedCapacityExcluding t →
        p.available_capacity_for_chunk c t = 0)
    ∧ (¬ p.allowsUpload → p.available_capacity_for_chunk c t = 0)
    ∧ (p.possessed_chunks.getD c false = false →
        p.available_capacity_for_chunk c t = 0)
    ∧ (p.allowsUpload → p.possessed_chunks.getD c false = true →
        (p.available_capacity_for_chunk c t : Int) =
          max 0 ((p.speed : Int) - (p.usedCapacityExcluding t : Int))) := by
  unfold Peer.available_capacity_for_chunk
  split_ifs with h₁ h₂
  · refine ⟨Nat.zero_le _, fun _ => rfl, fun _ => rfl, fun _ => rfl, fun _ _ => ?_⟩
    rw [max_eq_left (by omega : (p.speed : Int) - (p.usedCapacityExcluding t : Int) ≤ 0)]
    simp
  · refine ⟨Nat.sub_le _ _, fun h => absurd h h₂, fun h => absurd h₁.1 h,
      fun h => ?_, fun _ _ => ?_⟩
    · rw [h] at h₁
      cases h₁.2
    · rw [max_eq_right (by omega : (0 : Int) ≤ (p.speed : Int) - (p.usedCapacityExcluding t : Int))]
      omega
  · refine ⟨Nat.zero_le _, fun _ => rfl, fun _ => rfl, fun _ => rfl, fun ha hh => ?_⟩
    exact absurd ⟨ha, hh⟩ h₁

/-! ## Claim C8 — the upload counter increments after the recording

In the five-peer run, round 5's sweep records the Selfish peer 1's
completion round and, in the same round, the bookkeeping that follows the
sweep increments peer 1's upload counter twice (two of its uploads finish
in that very round). -/

/-- C8 counterexample: in the concrete five-peer run, after round 4 the
Selfish peer 1 is incomplete with 0 uploads counted; within round 5, after
the completion sweep its completion round 5 is recorded while its counter
is still 0, and the source bookkeeping that runs after the sweep raises the
counter to 2 — increments in the round in which the completion round is
recorded, after the recording. -/
theorem selfish_upload_counted_after_completion_recorded :
    Config.from_peer_config 2 5 1 4 2 1 c8Descriptors = some c8Config
    ∧ runLoop scriptShuffler 4 (initSim c8Config c8Script) = Except.ok c8St4
    ∧ (getPeer c8St4.dist 1).selfishness = Selfishness.Selfish
    ∧ (getPeer c8St4.dist 1).completion_round = none
    ∧ (getPeer c8St4.dist 1).number_uploads = 0
    ∧ roundScheduled scriptShuffler c8St4 = Except.ok c8Sched
    ∧ (getPeer (sweepPhase c8Sched.1).1.dist 1).completion_round = some 5
    ∧ (getPeer (sweepPhase c8Sched.1).1.dist 1).number_uploads = 0
    ∧ (getPeer (bookkeepPhase (sweepPhase c8Sched.1).1
        (sweepPhase c8Sched.1).2.1).dist 1).number_uploads = 2
    ∧ roundStep scriptShuffler c8St4 =
        Except.ok (roundFinish c8Sched.1 c8Sched.2) := by
  decide

/-! ## Claim C7 amended — explicit-mode defaults -/

/-- Indexing the trailing `replicate` segment of a twice-appended list. -/
theorem getElem_third_segment {α : Type} (a b : List α) (n : Nat) (x : α)
    (i : Nat) (hi : a.length + b.length ≤ i)
    (h : i < (a ++ b ++ List.replicate n x).length) :
    (a ++ b ++ List.replicate n x)[i] = x := by
  have hab : (a ++ b).length ≤ i := by simp; omega
  rw [List.getElem_append_right hab, List.getElem_replicate]

/-- C7 amended: under the common preconditions and the normalized-fast
bound, `from_peer_config` fails by assertion exactly when the descriptor
list is longer than `P - S`; on success, every unfilled trailing peer
(index at least `S + len`) receives the default policy (Altruistic), the
default strategy (RarestFirst), and the normalized **fast** speed tier
(`Speed::default()` is `Fast` in the source, so the slow tier of the
original claim is wrong). -/
theorem from_peer_config_defaults_and_length_gate
    (C P S fast med slow : Nat) (pcs : List PeerConfig)
    (hc : commonParametersOk C P S fast med slow)
    (h1000 : fast / Nat.gcd (Nat.gcd slow med) fast ≤ 1000) :
    ((Config.from_peer_config C P S fast med slow pcs).isNone
        ↔ P - S < pcs.length)
    ∧ (∀ cfg, Config.from_peer_config C P S fast med slow pcs = some cfg →
        ∀ i, S + pcs.length ≤ i → i < P →
          cfg.peer_selfishness.getD i default = Selfishness.Altruistic
          ∧ cfg.peer_strategies.getD i default = Strategy.RarestFirst
          ∧ cfg.peer_speeds.getD i default =
              fast / Nat.gcd (Nat.gcd slow med) fast) := by
  unfold Config.from_peer_config
  rw [if_pos hc]
  by_cases hlen : pcs.length ≤ P - S
  · rw [if_pos hlen, if_pos h1000]
    constructor
    · simp
      omega
    · intro cfg hcfg i hiS hiP
      cases hcfg
      have hSP : S < P := hc.2.2.1
      have hseg : S + pcs.length ≤ P := by omega
      have hlen3 : ∀ {β : Type} (u : List β) (v : β),
          u.length = pcs.length →
          (List.replicate S v ++ u
            ++ List.replicate (P - (S + pcs.length)) v).length = P := by
        intro β u v hu
        simp [hu]
        omega
      refine ⟨?_, ?_, ?_⟩
      · have hL := hlen3 (pcs.map PeerConfig.selfishness) Selfishness.Altruistic
          (by simp)
        have hiL : i < (List.replicate S Selfishness.Altruistic
            ++ pcs.map PeerConfig.selfishness
            ++ List.replicate (P - (S + pcs.length))
                Selfishness.Altruistic).length := by rw [hL]; exact hiP
        rw [List.getD_eq_getElem?_getD, List.getElem?_eq_getElem hiL,
          Option.getD_some]
        exact getElem_third_segment _ _ _ _ i (by simp; omega) hiL
      · have hL := hlen3 (pcs.map PeerConfig.strategy) Strategy.RarestFirst
          (by simp)
        have hiL : i < (List.replicate S Strategy.RarestFirst
            ++ pcs.map PeerConfig.strategy
            ++ List.replicate (P - (S + pcs.length))
                Strategy.RarestFirst).length := by rw [hL]; exact hiP
        rw [List.getD_eq_getElem?_getD, List.getElem?_eq_getElem hiL,
          Option.getD_some]
        exact getElem_third_segment _ _ _ _ i (by simp; omega) hiL
      · have hL := hlen3 (pcs.map PeerConfig.speed) Speed.Fast (by simp)
        have hiL' : i < (List.replicate S Speed.Fast
            ++ pcs.map PeerConfig.speed
            ++ List.replicate (P - (S + pcs.length)) Speed.Fast).length := by
          rw [hL]; exact hiP
        have hiL : i < ((List.replicate S Speed.Fast
            ++ pcs.map PeerConfig.speed
            ++ List.replicate (P - (S + pcs.length)) Speed.Fast).map (fun s =>
              match s with
              | Speed.Fast => fast / Nat.gcd (Nat.gcd slow med) fast
              | Speed.Medium => med / Nat.gcd (Nat.gcd slow med) fast
              | Speed.Slow => slow / Nat.gcd (Nat.gcd slow med) fast)).length := by
          simpa using hiL'
        rw [List.getD_eq_getElem?_getD, List.getElem?_eq_getElem hiL,
          Option.getD_some, List.getElem_map]
        rw [getElem_third_segment _ _ _ _ i (by simp; omega) hiL']
  · rw [if_neg hlen]
    constructor
    · simp
      omega
    · intro cfg hcfg
      cases hcfg

/-- Witness for the amended C7 theorem: the counterexample input, with one
unfilled trailing peer receiving Altruistic / RarestFirst / normalized fast
speed 2. -/
theorem from_peer_config_defaults_witness :
    commonParametersOk 1 3 1 2 2 1
    ∧ 2 / Nat.gcd (Nat.gcd 1 2) 2 ≤ 1000
    ∧ (((Config.from_peer_config 1 3 1 2 2 1 []).isNone
          ↔ 3 - 1 < ([] : List PeerConfig).length)
      ∧ (∀ cfg, Config.from_peer_config 1 3 1 2 2 1 [] = some cfg →
          ∀ i, 1 + ([] : List PeerConfig).length ≤ i → i < 3 →
            cfg.peer_selfishness.getD i default = Selfishness.Altruistic
            ∧ cfg.peer_strategies.getD i default = Strategy.RarestFirst
            ∧ cfg.peer_speeds.getD i default = 2 / Nat.gcd (Nat.gcd 1 2) 2)) :=
  ⟨by decide, by decide,
    from_peer_config_defaults_and_length_gate 1 3 1 2 2 1 []
      (by decide) (by decide)⟩

/-! ## Claim C10 witness input -/

/-- A concrete peer for the capacity witness: Selfish, incomplete, speed 2,
possessing chunk 0, with 3 bytes already committed to other targets. -/
def c10Peer : Peer :=
  { index := 0, selfishness := Selfishness.Selfish,
    strategy := Strategy.RarestFirst, speed := 2, completion_round := none,
    possessed_chunks := [true, false], number_uploads := 0,
    current_uploads :=
      [{ chunk_number := 0, source_peer := 0, target_peer := 3,
         downloaded_size := 1, current_size := 2 },
       { chunk_number := 1, source_peer := 0, target_peer := 4,
         downloaded_size := 1, current_size := 1 }],
    current_download := none }

/-- Witness for C10 at `c10Peer`, chunk 0, target 5: the committed sum 3
exceeds the speed 2 and the capacity is clamped to 0. -/
theorem available_capacity_witness :
    (0 : Nat) < c10Peer.possessed_chunks.length
    ∧ (c10Peer.available_capacity_for_chunk 0 5 ≤ c10Peer.speed
      ∧ (c10Peer.speed < c10Peer.usedCapacityExcluding 5 →
          c10Peer.available_capacity_for_chunk 0 5 = 0)
      ∧ (¬ c10Peer.allowsUpload → c10Peer.available_capacity_for_chunk 0 5 = 0)
      ∧ (c10Peer.possessed_chunks.getD 0 false = false →
          c10Peer.available_capacity_for_chunk 0 5 = 0)
      ∧ (c10Peer.allowsUpload → c10Peer.possessed_chunks.getD 0 false = true →
          (c10Peer.available_capacity_for_chunk 0 5 : Int) =
            max 0 ((c10Peer.speed : Int) - (c10Peer.usedCapacityExcluding 5 : Int)))) :=
  ⟨by decide, available_capacity_total_and_clamped c10Peer 0 5 (by decide)⟩

/-! ## Claim C1 — the new-transfer search commits the first eligible pair

The `'chunk_search` loop is characterized: writing `sourceEligible` for the
claim's eligibility condition (policy permits, chunk possessed, residual
capacity positive) and `chunkViable` for a chunk the target lacks that has
at least one eligible source, the search returns exactly the first viable
chunk (in the strategy order it was handed) paired with that chunk's first
eligible source (in non-seeds-then-seeds shuffled order), and the committed
amount is min(target speed, source residual capacity, chunk size). -/

/-- `x` is the first element of the list satisfying `P`. -/
inductive FirstIn (P : Nat → Prop) : List Nat → Nat → Prop
  | head (x : Nat) (l : List Nat) : P x → FirstIn P (x :: l) x
  | tail (y x : Nat) (l : List Nat) : ¬ P y → FirstIn P l x → FirstIn P (y :: l) x

theorem firstIn_nil (P : Nat → Prop) (x : Nat) : ¬ FirstIn P [] x := by
  intro h; cases h

theorem firstIn_cons (P : Nat → Prop) (y x : Nat) (l : List Nat) :
    FirstIn P (y :: l) x ↔ (P y ∧ x = y) ∨ (¬ P y ∧ FirstIn P l x) := by
  constructor
  · intro h
    cases h with
    | head _ _ hp => exact Or.inl ⟨hp, rfl⟩
    | tail _ _ _ hn h' => exact Or.inr ⟨hn, h'⟩
  · intro h
    rcases h with ⟨hp, rfl⟩ | ⟨hn, h'⟩
    · exact FirstIn.head _ _ hp
    · exact FirstIn.tail _ _ _ hn h'

theorem firstIn_mem_prop (P : Nat → Prop) (l : List Nat) (x : Nat) :
    FirstIn P l x → x ∈ l ∧ P x := by
  intro h
  induction h with
  | head _ _ hp => exact ⟨List.mem_cons_self _ _, hp⟩
  | tail _ _ _ _ _ ih => exact ⟨List.mem_cons_of_mem _ ih.1, ih.2⟩

/-- The claim's source-eligibility condition for a (chunk, target) pair:
the cooperation policy permits serving, the source possesses the chunk, and
its residual capacity excluding any commitment to this target is
positive. -/
def sourceEligible (d : Distribution) (target chunkIdx s : Nat) : Prop :=
  (getPeer d s).allowsUpload
  ∧ (getPeer d s).possessed_chunks.getD chunkIdx false = true
  ∧ 0 < (getPeer d s).speed - (getPeer d s).usedCapacityExcluding target

/-- A candidate chunk the search can commit: the target lacks it and some
source in the candidate list is eligible for it. -/
def chunkViable (d : Distribution) (target : Nat) (sources : List Nat)
    (c : Nat) : Prop :=
  (getPeer d target).possessed_chunks.getD c false = false
  ∧ ∃ s ∈ sources, sourceEligible d target c s

/-- The engine's commit test (`desired_capacity == 0 → continue`) agrees
with the claim's eligibility condition whenever the target's speed is
positive. -/
theorem desired_pos_iff (d : Distribution) (c s t : Nat)
    (ht : 0 < (getPeer d t).speed) :
    0 < desired_download_capacity d c s t ↔ sourceEligible d t c s := by
  unfold desired_download_capacity sourceEligible
    Peer.available_capacity_for_chunk
  rw [Nat.lt_min]
  constructor
  · rintro ⟨-, hpos⟩
    split_ifs at hpos with h1 h2
    · exact absurd hpos (by omega)
    · exact ⟨h1.1, h1.2, hpos⟩
    · exact absurd hpos (by omega)
  · rintro ⟨ha, hh, hres⟩
    refine ⟨ht, ?_⟩
    rw [if_pos ⟨ha, hh⟩, if_neg (by omega)]
    exact hres

/-- An eligible source is a real peer index (an out-of-range index denotes
the default peer, which possesses nothing). -/
theorem sourceEligible_lt_length (d : Distribution) (t c s : Nat)
    (h : sourceEligible d t c s) : s < d.peers.length := by
  by_contra hge
  have hdef : getPeer d s = default := by
    unfold getPeer
    exact List.getD_eq_default _ _ (by omega)
  have hfalse : (getPeer d s).possessed_chunks.getD c false = false := by
    rw [hdef]; rfl
  obtain ⟨-, h2, -⟩ := h
  rw [hfalse] at h2
  cases h2

/-- `findSource` finds exactly the first eligible source, and returns the
engine's deliverable capacity for it. -/
theorem findSource_some_spec (d : Distribution) (t c : Nat)
    (ht : 0 < (getPeer d t).speed) :
    ∀ (sources : List Nat) (s cap : Nat),
      findSource d t c sources = some (s, cap) →
      FirstIn (sourceEligible d t c) sources s
      ∧ cap = desired_download_capacity d c s t := by
  intro sources
  induction sources with
  | nil => intro s cap h; cases h
  | cons y l ih =>
    intro s cap h
    rw [findSource] at h
    split_ifs at h with h0
    · have hne : ¬ sourceEligible d t c y := by
        rw [← desired_pos_iff d c y t ht]
        omega
      obtain ⟨h1, h2⟩ := ih s cap h
      exact ⟨FirstIn.tail _ _ _ hne h1, h2⟩
    · simp only [Option.some.injEq, Prod.mk.injEq] at h
      obtain ⟨hy, hcap⟩ := h
      rw [← hy, ← hcap]
      refine ⟨FirstIn.head _ _ ?_, rfl⟩
      rw [← desired_pos_iff d c y t ht]
      omega

/-- `findSource` returns `none` exactly when no candidate source is
eligible. -/
theorem findSource_none_spec (d : Distribution) (t c : Nat)
    (ht : 0 < (getPeer d t).speed) :
    ∀ sources : List Nat,
      findSource d t c sources = none ↔
        ∀ s ∈ sources, ¬ sourceEligible d t c s := by
  intro sources
  induction sources with
  | nil => simp [findSource]
  | cons y l ih =>
    rw [findSource]
    split_ifs with h0
    · rw [ih]
      have hne : ¬ sourceEligible d t c y := by
        rw [← desired_pos_iff d c y t ht]
        omega
      simp [hne]
    · have he : sourceEligible d t c y := by
        rw [← desired_pos_iff d c y t ht]
        omega
      simp [he]

/-- `chunkSearch` commits exactly the first viable chunk together with its
first eligible source. -/
theorem chunkSearch_some_spec (d : Distribution) (t : Nat)
    (ht : 0 < (getPeer d t).speed) (sources : List Nat) :
    ∀ (cs : List Nat) (c s cap : Nat),
      chunkSearch d t cs sources = some (c, s, cap) →
      FirstIn (chunkViable d t sources) cs c
      ∧ FirstIn (sourceEligible d t c) sources s
      ∧ cap = desired_download_capacity d c s t := by
  intro cs
  induction cs with
  | nil => intro c s cap h; cases h
  | cons y l ih =>
    intro c s cap h
    rw [chunkSearch] at h
    split_ifs at h with hposs
    · have hnv : ¬ chunkViable d t sources y := fun hv => by
        rw [hv.1] at hposs; cases hposs
      obtain ⟨h1, h2, h3⟩ := ih c s cap h
      exact ⟨FirstIn.tail _ _ _ hnv h1, h2, h3⟩
    · cases hfs : findSource d t y sources with
      | none =>
        rw [hfs] at h
        have hnv : ¬ chunkViable d t sources y := by
          rw [findSource_none_spec d t y ht] at hfs
          rintro ⟨-, s', hs', he⟩
          exact hfs s' hs' he
        obtain ⟨h1, h2, h3⟩ := ih c s cap h
        exact ⟨FirstIn.tail _ _ _ hnv h1, h2, h3⟩
      | some pr =>
        obtain ⟨s', cap'⟩ := pr
        rw [hfs] at h
        simp only [Option.some.injEq, Prod.mk.injEq] at h
        obtain ⟨hyc, hss, hcc⟩ := h
        rw [← hyc, ← hss, ← hcc]
        obtain ⟨hfi, hcap⟩ := findSource_some_spec d t y ht sources s' cap' hfs
        have hmem := (firstIn_mem_prop _ _ _ hfi).1
        have hel := (firstIn_mem_prop _ _ _ hfi).2
        have hv : chunkViable d t sources y := by
          refine ⟨?_, s', hmem, hel⟩
          cases hb : (getPeer d t).possessed_chunks.getD y false
          · rfl
          · exact absurd hb hposs
        exact ⟨FirstIn.head _ _ hv, hfi, hcap⟩

/-- `chunkSearch` returns `none` exactly when no candidate chunk is
viable (so no transfer starts for that peer this round). -/
theorem chunkSearch_none_spec (d : Distribution) (t : Nat)
    (ht : 0 < (getPeer d t).speed) (sources : List Nat) :
    ∀ cs : List Nat,
      chunkSearch d t cs sources = none →
      ∀ c ∈ cs, ¬ chunkViable d t sources c := by
  intro cs
  induction cs with
  | nil => intro _ c hc; cases hc
  | cons y l ih =>
    intro h c hc
    rw [chunkSearch] at h
    split_ifs at h with hposs
    · rcases List.mem_cons.mp hc with rfl | hc'
      · intro hv
        rw [hv.1] at hposs
        cases hposs
      · exact ih h c hc'
    · cases hfs : findSource d t y sources with
      | none =>
        rw [hfs] at h
        rcases List.mem_cons.mp hc with rfl | hc'
        · rw [findSource_none_spec d t _ ht] at hfs
          rintro ⟨-, s', hs', he⟩
          exact hfs s' hs' he
        · exact ih h c hc'
      | some pr =>
        rw [hfs] at h
        cases h

theorem length_modifyAt (l : List α) (i : Nat) (f : α → α) :
    (modifyAt l i f).length = l.length := by
  induction l generalizing i with
  | nil => rfl
  | cons x xs ih =>
    cases i with
    | zero => rfl
    | succ j => simp [modifyAt, ih]

theorem getD_modifyAt_self (l : List α) (i : Nat) (f : α → α) (d : α)
    (h : i < l.length) : (modifyAt l i f).getD i d = f (l.getD i d) := by
  induction l generalizing i with
  | nil => cases h
  | cons x xs ih =>
    cases i with
    | zero => rfl
    | succ j => exact ih j (by simpa using h)

theorem getD_modifyAt_ne (l : List α) (i j : Nat) (f : α → α) (d : α)
    (h : j ≠ i) : (modifyAt l i f).getD j d = l.getD j d := by
  induction l generalizing i j with
  | nil => rfl
  | cons x xs ih =>
    cases i with
    | zero =>
      cases j with
      | zero => exact absurd rfl h
      | succ j' => rfl
    | succ i' =>
      cases j with
      | zero => rfl
      | succ j' => exact ih i' j' (by omega)

theorem mem_set_self (l : List α) (i : Nat) (x : α) (h : i < l.length) :
    x ∈ l.set i x := by
  induction l generalizing i with
  | nil => cases h
  | cons y ys ih =>
    cases i with
    | zero => exact List.mem_cons_self _ _
    | succ j => exact List.mem_cons_of_mem _ (ih j (by simpa using h))

theorem findIdx?_lt_length {p : α → Bool} :
    ∀ {l : List α} {i : Nat}, l.findIdx? p = some i → i < l.length := by
  intro l
  induction l with
  | nil => intro i h; cases h
  | cons x xs ih =>
    intro i h
    have hc : (x :: xs).findIdx? p =
        if p x then some 0 else (xs.findIdx? p).map (· + 1) := by
      simp [List.findIdx?_cons]
    rw [hc] at h
    split_ifs at h with hp
    · cases h
      simp
    · cases hm : xs.findIdx? p with
      | none => rw [hm] at h; cases h
      | some j =>
        rw [hm] at h
        simp at h
        have := ih hm
        simp
        omega

/-- The freshly committed download is attached to the source's active
uploads (whether it replaced a stale entry or was pushed). -/
theorem recordUpload_mem (p : Peer) (dl : Download) :
    dl ∈ (p.recordUpload dl).current_uploads := by
  unfold Peer.recordUpload
  cases h : p.index_of_upload dl.chunk_number dl.target_peer with
  | none => simp
  | some i =>
    simp only []
    exact mem_set_self _ _ _ (findIdx?_lt_length h)

/-- C1: characterization of the engine's new-transfer search and commit.
Given the target's candidate chunks in its strategy order (`cs`) and the
candidate sources in shuffled non-seeds-then-seeds order (`sources`), with
the target's speed positive and at most the chunk size (true of every peer
built from a valid configuration, as speeds divide the chunk size):
if the search finds nothing then no (chunk, source) pair is eligible and no
transfer starts; otherwise the committed pair is exactly the first viable
chunk with that chunk's first eligible source, where eligibility is the
policy / possession / positive-residual condition, the committed amount is
min(target speed, source residual capacity, chunk size), and the new
transfer record is attached to both the target (`current_download`) and the
source (`current_uploads`) — a single transfer, the search having stopped
at the first commitment. -/
theorem new_transfer_first_eligible_pair
    (d : Distribution) (t : Nat) (cs sources : List Nat)
    (ht : 0 < (getPeer d t).speed)
    (htc : (getPeer d t).speed ≤ d.chunk_size)
    (htlen : t < d.peers.length) :
    (chunkSearch d t cs sources = none →
      ∀ c ∈ cs, ¬ chunkViable d t sources c)
    ∧ ∀ c s cap, chunkSearch d t cs sources = some (c, s, cap) →
        FirstIn (chunkViable d t sources) cs c
        ∧ FirstIn (sourceEligible d t c) sources s
        ∧ cap = min (min (getPeer d t).speed
            ((getPeer d s).speed - (getPeer d s).usedCapacityExcluding t))
            d.chunk_size
        ∧ (getPeer (commitDownload d t c s cap) t).current_download =
            some { chunk_number := c, source_peer := s, target_peer := t,
                   downloaded_size := cap, current_size := cap }
        ∧ ({ chunk_number := c, source_peer := s, target_peer := t,
             downloaded_size := cap, current_size := cap } : Download) ∈
            (getPeer (commitDownload d t c s cap) s).current_uploads := by
  refine ⟨chunkSearch_none_spec d t ht sources cs, ?_⟩
  intro c s cap hsearch
  obtain ⟨hfc, hfs, hcap⟩ := chunkSearch_some_spec d t ht sources cs c s cap hsearch
  have hv : chunkViable d t sources c := (firstIn_mem_prop _ _ _ hfc).2
  have hel : sourceEligible d t c s := (firstIn_mem_prop _ _ _ hfs).2
  have hslen : s < d.peers.length := sourceEligible_lt_length d t c s hel
  obtain ⟨ha, hh, hres⟩ := hel
  have hst : s ≠ t := by
    intro hst
    rw [hst, hv.1] at hh
    cases hh
  have havail : (getPeer d s).available_capacity_for_chunk c t =
      (getPeer d s).speed - (getPeer d s).usedCapacityExcluding t := by
    unfold Peer.available_capacity_for_chunk
    rw [if_pos ⟨ha, hh⟩, if_neg (by omega)]
  have hcap' : cap = min (getPeer d t).speed
      ((getPeer d s).speed - (getPeer d s).usedCapacityExcluding t) := by
    rw [hcap]
    unfold desired_download_capacity
    rw [havail]
  refine ⟨hfc, hfs, ?_, ?_, ?_⟩
  · rw [Nat.min_eq_left (le_trans (Nat.min_le_left _ _) htc)]
    exact hcap'
  · unfold commitDownload modifyPeer getPeer
    simp only []
    rw [getD_modifyAt_ne _ _ _ _ _ (Ne.symm hst),
      getD_modifyAt_self _ _ _ _ htlen]
  · unfold commitDownload modifyPeer getPeer
    simp only []
    rw [getD_modifyAt_self _ _ _ _ (by rw [length_modifyAt]; exact hslen),
      getD_modifyAt_ne _ _ _ _ _ hst]
    exact recordUpload_mem _ _

/-- The distribution of the C1 witness: 1 chunk, 1 seed, 2 peers, speed 1,
chunk size 1 (built from a valid uniform configuration). -/
def c1Dist : Distribution := Distribution.new c3Config

/-- Witness for C1 at `c1Dist`: target peer 1 searching chunks `[0]` over
sources `[0]` commits (chunk 0, source 0, amount 1). -/
theorem new_transfer_witness :
    0 < (getPeer c1Dist 1).speed
    ∧ (getPeer c1Dist 1).speed ≤ c1Dist.chunk_size
    ∧ 1 < c1Dist.peers.length
    ∧ ((chunkSearch c1Dist 1 [0] [0] = none →
          ∀ c ∈ [0], ¬ chunkViable c1Dist 1 [0] c)
      ∧ ∀ c s cap, chunkSearch c1Dist 1 [0] [0] = some (c, s, cap) →
          FirstIn (chunkViable c1Dist 1 [0]) [0] c
          ∧ FirstIn (sourceEligible c1Dist 1 c) [0] s
          ∧ cap = min (min (getPeer c1Dist 1).speed
              ((getPeer c1Dist s).speed -
                (getPeer c1Dist s).usedCapacityExcluding 1))
              c1Dist.chunk_size
          ∧ (getPeer (commitDownload c1Dist 1 c s cap) 1).current_download =
              some { chunk_number := c, source_peer := s, target_peer := 1,
                     downloaded_size := cap, current_size := cap }
          ∧ ({ chunk_number := c, source_peer := s, target_peer := 1,
               downloaded_size := cap, current_size := cap } : Download) ∈
              (getPeer (commitDownload c1Dist 1 c s cap) s).current_uploads) :=
  ⟨by decide, by decide, by decide,
    new_transfer_first_eligible_pair c1Dist 1 [0] [0]
      (by decide) (by decide) (by decide)⟩

/-! ## Projection machinery

The scheduling loop only ever rewrites `current_download` /
`current_uploads`; the sweep only rewrites possession bits and completion
rounds; the bookkeeping only rewrites upload counters and upload lists.
`peerCore` collects every field the scheduling loop leaves untouched. -/

/-- The peer fields the scheduling loop never modifies. -/
def peerCore (p : Peer) :
    Nat × Selfishness × Strategy × Nat × Option Nat × List Bool × Nat :=
  (p.index, p.selfishness, p.strategy, p.speed, p.completion_round,
    p.possessed_chunks, p.number_uploads)

theorem peerCore_setDownload (p : Peer) (o : Option Download) :
    peerCore { p with current_download := o } = peerCore p := rfl

theorem peerCore_recordUpload (p : Peer) (dl : Download) :
    peerCore (p.recordUpload dl) = peerCore p := by
  unfold Peer.recordUpload
  cases p.index_of_upload dl.chunk_number dl.target_peer <;> rfl

theorem map_modifyAt (l : List α) (i : Nat) (f : α → α) (g : α → β)
    (h : ∀ x, g (f x) = g x) : (modifyAt l i f).map g = l.map g := by
  induction l generalizing i with
  | nil => rfl
  | cons x xs ih =>
    cases i with
    | zero => simp [modifyAt, h]
    | succ j => simp [modifyAt, ih]

theorem getD_of_map_eq (g : α → β) (l l' : List α)
    (h : l.map g = l'.map g) (i : Nat) (d : α) :
    g (l.getD i d) = g (l'.getD i d) := by
  have hlen : l.length = l'.length := by
    rw [← List.length_map l g, h, List.length_map]
  by_cases hi : i < l.length
  · have hi' : i < l'.length := by omega
    rw [List.getD_eq_getElem?_getD, List.getElem?_eq_getElem hi,
      Option.getD_some, List.getD_eq_getElem?_getD,
      List.getElem?_eq_getElem hi', Option.getD_some]
    have h1 : (l.map g)[i]? = (l'.map g)[i]? := by rw [h]
    rw [List.getElem?_map, List.getElem?_map, List.getElem?_eq_getElem hi,
      List.getElem?_eq_getElem hi'] at h1
    simp only [Option.map_some'] at h1
    exact Option.some.inj h1
  · rw [List.getD_eq_default _ _ (by omega), List.getD_eq_default _ _ (by omega)]

theorem getD_mem_or (l : List α) (i : Nat) (d : α) :
    l.getD i d ∈ l ∨ l.getD i d = d := by
  by_cases hi : i < l.length
  · left
    rw [List.getD_eq_getElem?_getD, List.getElem?_eq_getElem hi, Option.getD_some]
    exact List.getElem_mem _
  · right
    exact List.getD_eq_default _ _ (by omega)

/-- Peer-list projections derived from a shared `peerCore` image. -/
theorem poss_of_core (l l' : List Peer) (h : l.map peerCore = l'.map peerCore) :
    l.map Peer.possessed_chunks = l'.map Peer.possessed_chunks := by
  have := congrArg (List.map (fun x :
    Nat × Selfishness × Strategy × Nat × Option Nat × List Bool × Nat =>
      x.2.2.2.2.2.1)) h
  simpa [List.map_map, Function.comp, peerCore] using this

theorem comps_of_core (l l' : List Peer) (h : l.map peerCore = l'.map peerCore) :
    l.map Peer.completion_round = l'.map Peer.completion_round := by
  have := congrArg (List.map (fun x :
    Nat × Selfishness × Strategy × Nat × Option Nat × List Bool × Nat =>
      x.2.2.2.2.1)) h
  simpa [List.map_map, Function.comp, peerCore] using this

theorem countP_of_poss_eq (l l' : List Peer) (c : Nat)
    (h : l.map Peer.possessed_chunks = l'.map Peer.possessed_chunks) :
    l.countP (fun p => p.possessed_chunks.getD c false) =
      l'.countP (fun p => p.possessed_chunks.getD c false) := by
  have h1 := List.countP_map (fun bits : List Bool => bits.getD c false)
    Peer.possessed_chunks l
  have h2 := List.countP_map (fun bits : List Bool => bits.getD c false)
    Peer.possessed_chunks l'
  have h3 : List.countP
      ((fun bits : List Bool => bits.getD c false) ∘ Peer.possessed_chunks) l =
    List.countP
      ((fun bits : List Bool => bits.getD c false) ∘ Peer.possessed_chunks) l' := by
    rw [← h1, ← h2, h]
  exact h3

/-! ## Permutation lemmas for the shuffle oracle, sort, and tie shuffles -/

theorem applyShuffle_perm (S : Shuffler σ) (ρ : σ) (l : List Nat) :
    List.Perm (applyShuffle S ρ l).1 l := by
  unfold applyShuffle
  simp only []
  split
  · assumption
  · exact List.Perm.refl _

theorem insertByKey_perm (key : Nat → Nat) (x : Nat) (l : List Nat) :
    List.Perm (insertByKey key x l) (x :: l) := by
  induction l with
  | nil => exact List.Perm.refl _
  | cons y ys ih =>
    rw [insertByKey]
    split_ifs
    · exact List.Perm.refl _
    · exact List.Perm.trans (List.Perm.cons y ih) (List.Perm.swap x y ys)

theorem sortByKey_perm (key : Nat → Nat) (l : List Nat) :
    List.Perm (sortByKey key l) l := by
  induction l with
  | nil => exact List.Perm.refl _
  | cons x xs ih =>
    rw [sortByKey]
    exact List.Perm.trans (insertByKey_perm key x (sortByKey key xs))
      (List.Perm.cons x ih)

theorem takeRun_append (key : Nat → Nat) (k : Nat) (l : List Nat) :
    (takeRun key k l).1 ++ (takeRun key k l).2 = l := by
  induction l with
  | nil => rfl
  | cons x xs ih =>
    rw [takeRun]
    split_ifs
    · simpa using ih
    · rfl

theorem randomizeChunksFuel_perm (S : Shuffler σ) (key : Nat → Nat) :
    ∀ (fuel : Nat) (ρ : σ) (l : List Nat),
      List.Perm (randomizeChunksFuel S key fuel ρ l).1 l := by
  intro fuel
  induction fuel with
  | zero =>
    intro ρ l
    cases l <;> exact List.Perm.refl _
  | succ fuel ih =>
    intro ρ l
    cases l with
    | nil => exact List.Perm.refl _
    | cons x xs =>
      rw [randomizeChunksFuel]
      simp only []
      have hgrp : List.Perm
          (if (takeRun key (key x) xs).1.isEmpty
            then (x :: (takeRun key (key x) xs).1, ρ)
            else applyShuffle S ρ (x :: (takeRun key (key x) xs).1)).1
          (x :: (takeRun key (key x) xs).1) := by
        split
        · exact List.Perm.refl _
        · exact applyShuffle_perm _ _ _
      have happ := List.Perm.append hgrp
        (ih (if (takeRun key (key x) xs).1.isEmpty
            then (x :: (takeRun key (key x) xs).1, ρ)
            else applyShuffle S ρ (x :: (takeRun key (key x) xs).1)).2
          (takeRun key (key x) xs).2)
      refine List.Perm.trans happ ?_
      have hsplit := takeRun_append key (key x) xs
      rw [List.cons_append, hsplit]

theorem randomizeChunks_perm (S : Shuffler σ) (key : Nat → Nat) (ρ : σ)
    (l : List Nat) : List.Perm (randomizeChunks S key ρ l).1 l :=
  randomizeChunksFuel_perm S key l.length ρ l

/-! ## The reachable-state invariant -/

/-- The chunk's possession counter as the engine stores it. -/
def chunkCount (d : Distribution) (c : Nat) : Nat :=
  (getChunk d c).number_possessing_peers

/-- A peer's possession bit. -/
def peerHasChunk (d : Distribution) (j c : Nat) : Bool :=
  (getPeer d j).possessed_chunks.getD c false

/-- The invariant of every state the engine reaches from a valid
configuration: possession bitmaps have one bit per chunk; the peer at
position `i` carries index `i`; every chunk's `number_possessing_peers`
equals the number of peers whose bit for it is set; an active download
names its holder as target, an in-range chunk the holder lacks, and its
holder is an incomplete non-seed; and the persistent index vectors are
permutations of the ranges they started from (segment-wise for
`shuffled_peers`). -/
structure SimInv (st : Sim σ) : Prop where
  possLen : ∀ j < st.dist.peers.length,
    (st.dist.peers.getD j default).possessed_chunks.length = st.dist.chunks.length
  counts : ∀ c < st.dist.chunks.length,
    (st.dist.chunks.getD c default).number_possessing_peers =
      st.dist.peers.countP (fun p => p.possessed_chunks.getD c false)
  dlOk : ∀ j < st.dist.peers.length,
    ∀ dl ∈ (st.dist.peers.getD j default).current_download.toList,
      dl.target_peer = j ∧ dl.chunk_number < st.dist.chunks.length ∧
        (st.dist.peers.getD j default).possessed_chunks.getD
            dl.chunk_number false = false ∧
        (st.dist.peers.getD j default).completion_round = none ∧
        st.dist.number_seeds ≤ j
  shufSeed : List.Perm (st.shuffled.take st.dist.number_seeds)
    (List.range st.dist.number_seeds)
  shufRest : List.Perm (st.shuffled.drop st.dist.number_seeds)
    (List.range' st.dist.number_seeds (st.dist.peers.length - st.dist.number_seeds))
  tempPerm : List.Perm st.temp (List.range st.dist.chunks.length)

/-- The scheduling loop's frame: one `schedulePeer` step that does not
abort leaves every `peerCore` field, the chunk list, the configuration
scalars, `shuffled_peers`, the snapshots and the running round unchanged,
and permutes `temporary_chunks`. -/
theorem schedulePeer_frame (S : Shuffler σ) (st : Sim σ) (exch i : Nat)
    (st' : Sim σ) (exch' : Nat)
    (h : schedulePeer S st exch i = Except.ok (st', exch')) :
    st'.dist.chunks = st.dist.chunks
    ∧ st'.dist.peers.map peerCore = st.dist.peers.map peerCore
    ∧ st'.dist.number_seeds = st.dist.number_seeds
    ∧ st'.dist.chunk_size = st.dist.chunk_size
    ∧ st'.shuffled = st.shuffled
    ∧ st'.rounds = st.rounds
    ∧ st'.current = st.current
    ∧ List.Perm st'.temp st.temp := by
  rw [schedulePeer] at h
  by_cases hcomp : (getPeer st.dist i).completion_round.isSome
  · rw [if_pos hcomp] at h
    simp only [Except.ok.injEq, Prod.mk.injEq] at h
    obtain ⟨hst, -⟩ := h
    subst hst
    exact ⟨rfl, rfl, rfl, rfl, rfl, rfl, rfl, List.Perm.refl _⟩
  · rw [if_neg hcomp] at h
    cases hdl : (getPeer st.dist i).current_download with
    | some dl =>
      rw [hdl] at h
      simp only [] at h
      split_ifs at h with hz
      simp only [Except.ok.injEq, Prod.mk.injEq] at h
      obtain ⟨hst, -⟩ := h
      subst hst
      refine ⟨rfl, ?_, rfl, rfl, rfl, rfl, rfl, List.Perm.refl _⟩
      show (modifyAt (modifyAt st.dist.peers i _) dl.source_peer _).map peerCore
        = st.dist.peers.map peerCore
      rw [map_modifyAt _ _ _ peerCore (fun q => peerCore_recordUpload q _),
        map_modifyAt _ _ _ peerCore (fun q => peerCore_setDownload q _)]
    | none =>
      rw [hdl] at h
      simp only [] at h
      split at h
      · simp only [Except.ok.injEq, Prod.mk.injEq] at h
        obtain ⟨hst, -⟩ := h
        subst hst
        refine ⟨rfl, ?_, rfl, rfl, rfl, rfl, rfl, randomizeChunks_perm _ _ _ _⟩
        show (modifyAt (modifyAt st.dist.peers i _) _ _).map peerCore
          = st.dist.peers.map peerCore
        rw [map_modifyAt _ _ _ peerCore (fun q => peerCore_recordUpload q _),
          map_modifyAt _ _ _ peerCore (fun q => peerCore_setDownload q _)]
      · simp only [Except.ok.injEq, Prod.mk.injEq] at h
        obtain ⟨hst, -⟩ := h
        subst hst
        exact ⟨rfl, rfl, rfl, rfl, rfl, rfl, rfl, randomizeChunks_perm _ _ _ _⟩

/-- `List.set` is `modifyAt` with a constant function. -/
theorem set_eq_modifyAt (l : List α) (i : Nat) (x : α) :
    l.set i x = modifyAt l i (fun _ => x) := by
  induction l generalizing i with
  | nil => rfl
  | cons y ys ih =>
    cases i with
    | zero => rfl
    | succ j => simp [modifyAt, ih]

/-- The peer fields the completion sweep never modifies. -/
def sweepCore (p : Peer) :
    Nat × Selfishness × Strategy × Nat × Nat × List Download :=
  (p.index, p.selfishness, p.strategy, p.speed, p.number_uploads,
    p.current_uploads)

/-- The peer fields the upload bookkeeping never modifies. -/
def bookCore (p : Peer) :
    Nat × Selfishness × Strategy × Nat × Option Nat × List Bool × Option Download :=
  (p.index, p.selfishness, p.strategy, p.speed, p.completion_round,
    p.possessed_chunks, p.current_download)

theorem bookCore_chunk_upload_finished (p : Peer) (c t : Nat) :
    bookCore (p.chunk_upload_finished c t) = bookCore p := by
  unfold Peer.chunk_upload_finished
  cases p.index_of_upload c t <;> rfl

/-- Componentwise consequences of an equal `peerCore` image at any
position. -/
theorem core_fields_eq (l l' : List Peer)
    (h : l.map peerCore = l'.map peerCore) (j : Nat) :
    (l.getD j default).selfishness = (l'.getD j default).selfishness
    ∧ (l.getD j default).completion_round = (l'.getD j default).completion_round
    ∧ (l.getD j default).possessed_chunks = (l'.getD j default).possessed_chunks
    ∧ (l.getD j default).number_uploads = (l'.getD j default).number_uploads
    ∧ (l.getD j default).speed = (l'.getD j default).speed := by
  have hc := getD_of_map_eq peerCore l l' h j default
  exact ⟨congrArg (fun x :
      Nat × Selfishness × Strategy × Nat × Option Nat × List Bool × Nat =>
        x.2.1) hc,
    congrArg (fun x :
      Nat × Selfishness × Strategy × Nat × Option Nat × List Bool × Nat =>
        x.2.2.2.2.1) hc,
    congrArg (fun x :
      Nat × Selfishness × Strategy × Nat × Option Nat × List Bool × Nat =>
        x.2.2.2.2.2.1) hc,
    congrArg (fun x :
      Nat × Selfishness × Strategy × Nat × Option Nat × List Bool × Nat =>
        x.2.2.2.2.2.2) hc,
    congrArg (fun x :
      Nat × Selfishness × Strategy × Nat × Option Nat × List Bool × Nat =>
        x.2.2.2.1) hc⟩

/-- The scheduling loop's frame, iterated over the whole order list. -/
theorem schedulePeers_frame (S : Shuffler σ) :
    ∀ (order : List Nat) (st : Sim σ) (exch : Nat) (st' : Sim σ) (exch' : Nat),
      schedulePeers S order st exch = Except.ok (st', exch') →
      st'.dist.chunks = st.dist.chunks
      ∧ st'.dist.peers.map peerCore = st.dist.peers.map peerCore
      ∧ st'.dist.number_seeds = st.dist.number_seeds
      ∧ st'.dist.chunk_size = st.dist.chunk_size
      ∧ st'.shuffled = st.shuffled
      ∧ st'.rounds = st.rounds
      ∧ st'.current = st.current
      ∧ List.Perm st'.temp st.temp := by
  intro order
  induction order with
  | nil =>
    intro st exch st' exch' h
    rw [schedulePeers] at h
    simp only [Except.ok.injEq, Prod.mk.injEq] at h
    obtain ⟨hst, -⟩ := h
    subst hst
    exact ⟨rfl, rfl, rfl, rfl, rfl, rfl, rfl, List.Perm.refl _⟩
  | cons i rest ih =>
    intro st exch st' exch' h
    rw [schedulePeers] at h
    cases hsp : schedulePeer S st exch i with
    | error e => rw [hsp] at h; cases h
    | ok pr =>
      rw [hsp] at h
      obtain ⟨h1, h2, h3, h4, h5, h6, h7, h8⟩ :=
        schedulePeer_frame S st exch i pr.1 pr.2 hsp
      obtain ⟨g1, g2, g3, g4, g5, g6, g7, g8⟩ := ih pr.1 pr.2 st' exch' h
      exact ⟨g1.trans h1, g2.trans h2, g3.trans h3, g4.trans h4,
        g5.trans h5, g6.trans h6, g7.trans h7, g8.trans h8⟩

theorem modifyAt_oob (l : List α) (i : Nat) (f : α → α)
    (h : l.length ≤ i) : modifyAt l i f = l := by
  induction l generalizing i with
  | nil => rfl
  | cons x xs ih =>
    cases i with
    | zero => simp at h
    | succ j => simp [modifyAt, ih j (by simpa using h)]

theorem getD_modifyAt (l : List α) (i j : Nat) (f : α → α) (d : α) :
    (modifyAt l i f).getD j d =
      if j = i ∧ j < l.length then f (l.getD j d) else l.getD j d := by
  by_cases hji : j = i
  · subst hji
    by_cases hj : j < l.length
    · rw [getD_modifyAt_self _ _ _ _ hj, if_pos ⟨rfl, hj⟩]
    · rw [modifyAt_oob _ _ _ (by omega), if_neg (fun hx => hj hx.2)]
  · rw [getD_modifyAt_ne _ _ _ _ _ hji, if_neg (fun hx => hji hx.1)]

theorem recordUpload_download (p : Peer) (dl : Download) :
    (p.recordUpload dl).current_download = p.current_download := by
  unfold Peer.recordUpload
  cases p.index_of_upload dl.chunk_number dl.target_peer <;> rfl

/-- Attaching a transfer `u` to target position `i` and source position
`src` (the shape of both the continuation update and a fresh commit)
preserves the per-position download invariant, provided `u` itself
satisfies it at position `i`. -/
theorem dlOk_after_attach (P : List Peer) (C seeds i src : Nat) (u : Download)
    (hOld : ∀ j < P.length, ∀ dl ∈ (P.getD j default).current_download.toList,
      dl.target_peer = j ∧ dl.chunk_number < C ∧
        (P.getD j default).possessed_chunks.getD dl.chunk_number false = false ∧
        (P.getD j default).completion_round = none ∧ seeds ≤ j)
    (hNew : u.target_peer = i ∧ u.chunk_number < C ∧
      (P.getD i default).possessed_chunks.getD u.chunk_number false = false ∧
      (P.getD i default).completion_round = none ∧ seeds ≤ i) :
    ∀ j < (modifyAt (modifyAt P i
        (fun q => { q with current_download := some u })) src
        (fun q => q.recordUpload u)).length,
      ∀ dl ∈ ((modifyAt (modifyAt P i
          (fun q => { q with current_download := some u })) src
          (fun q => q.recordUpload u)).getD j default).current_download.toList,
        dl.target_peer = j ∧ dl.chunk_number < C ∧
          ((modifyAt (modifyAt P i
            (fun q => { q with current_download := some u })) src
            (fun q => q.recordUpload u)).getD j
              default).possessed_chunks.getD dl.chunk_number false = false ∧
          ((modifyAt (modifyAt P i
            (fun q => { q with current_download := some u })) src
            (fun q => q.recordUpload u)).getD j default).completion_round = none ∧
          seeds ≤ j := by
  set A := modifyAt (modifyAt P i
    (fun q => { q with current_download := some u })) src
    (fun q => q.recordUpload u) with hA
  have hcore : A.map peerCore = P.map peerCore := by
    rw [hA, map_modifyAt _ _ _ peerCore (fun q => peerCore_recordUpload q _),
      map_modifyAt _ _ _ peerCore (fun q => peerCore_setDownload q _)]
  have hlenA : A.length = P.length := by
    rw [hA, length_modifyAt, length_modifyAt]
  have hposs : ∀ j, (A.getD j default).possessed_chunks =
      (P.getD j default).possessed_chunks := fun j =>
    (core_fields_eq A P hcore j).2.2.1
  have hcompl : ∀ j, (A.getD j default).completion_round =
      (P.getD j default).completion_round := fun j =>
    (core_fields_eq A P hcore j).2.1
  have hdlj : ∀ j, (A.getD j default).current_download =
      (if j = i ∧ j < P.length then some u
        else (P.getD j default).current_download) := by
    intro j
    rw [hA, getD_modifyAt, length_modifyAt]
    by_cases h1 : j = src ∧ j < P.length
    · rw [if_pos h1, recordUpload_download, getD_modifyAt]
      split_ifs with h2 <;> rfl
    · rw [if_neg h1, getD_modifyAt]
      split_ifs with h2 <;> rfl
  intro j hj dl hdl
  have hjP : j < P.length := by rw [hlenA] at hj; exact hj
  rw [hdlj j] at hdl
  by_cases hcase : j = i ∧ j < P.length
  · rw [if_pos hcase] at hdl
    simp only [Option.toList_some, List.mem_singleton] at hdl
    subst hdl
    refine ⟨hcase.1 ▸ hNew.1, hNew.2.1, ?_, ?_, hcase.1 ▸ hNew.2.2.2.2⟩
    · rw [hposs j, hcase.1]
      exact hNew.2.2.1
    · rw [hcompl j, hcase.1]
      exact hNew.2.2.2.1
  · rw [if_neg hcase] at hdl
    obtain ⟨g1, g2, g3, g4, g5⟩ := hOld j hjP dl hdl
    refine ⟨g1, g2, ?_, ?_, g5⟩
    · rw [hposs j]
      exact g3
    · rw [hcompl j]
      exact g4

/-- Weak search characterization used by the invariant proof: a committed
chunk is one of the candidates and is not yet possessed by the target. -/
theorem chunkSearch_weak (d : Distribution) (t : Nat) :
    ∀ (cs sources : List Nat) (c s cap : Nat),
      chunkSearch d t cs sources = some (c, s, cap) →
      c ∈ cs ∧ (getPeer d t).possessed_chunks.getD c false = false := by
  intro cs
  induction cs with
  | nil => intro _ c s cap h; cases h
  | cons y l ih =>
    intro sources c s cap h
    rw [chunkSearch] at h
    split_ifs at h with hposs
    · obtain ⟨h1, h2⟩ := ih sources c s cap h
      exact ⟨List.mem_cons_of_mem _ h1, h2⟩
    · cases hfs : findSource d t y sources with
      | none =>
        rw [hfs] at h
        obtain ⟨h1, h2⟩ := ih sources c s cap h
        exact ⟨List.mem_cons_of_mem _ h1, h2⟩
      | some pr =>
        rw [hfs] at h
        simp only [Option.some.injEq, Prod.mk.injEq] at h
        obtain ⟨hyc, -, -⟩ := h
        subst hyc
        refine ⟨List.mem_cons_self _ _, ?_⟩
        cases hb : (getPeer d t).possessed_chunks.getD y false
        · rfl
        · exact absurd hb hposs

/-- The strategy dispatch hands the search some permutation of the
(randomized) temporary chunk list. -/
theorem strategyOrder_perm (S : Shuffler σ) (strat : Strategy)
    (tr : List Nat × σ) :
    List.Perm (match strat with
      | Strategy.RarestFirst => (tr.1, tr.2)
      | Strategy.MostCommonFirst => (tr.1.reverse, tr.2)
      | Strategy.Uniform => applyShuffle S tr.2 tr.1).1 tr.1 := by
  cases strat
  · exact List.Perm.refl _
  · exact List.reverse_perm _
  · exact applyShuffle_perm _ _ _

/-- One non-aborting scheduling step preserves the reachable-state
invariant (the scheduled position `i` comes from the non-seed segment). -/
theorem schedulePeer_inv (S : Shuffler σ) (st : Sim σ) (exch i : Nat)
    (st' : Sim σ) (exch' : Nat) (hsi : st.dist.number_seeds ≤ i)
    (hinv : SimInv st)
    (h : schedulePeer S st exch i = Except.ok (st', exch')) :
    SimInv st' := by
  obtain ⟨f1, f2, f3, f4, f5, f6, f7, f8⟩ :=
    schedulePeer_frame S st exch i st' exch' h
  have hplen : st'.dist.peers.length = st.dist.peers.length := by
    rw [← List.length_map st'.dist.peers peerCore, f2, List.length_map]
  have hdlOk : ∀ j < st'.dist.peers.length,
      ∀ dl ∈ (st'.dist.peers.getD j default).current_download.toList,
        dl.target_peer = j ∧ dl.chunk_number < st'.dist.chunks.length ∧
          (st'.dist.peers.getD j default).possessed_chunks.getD
              dl.chunk_number false = false ∧
          (st'.dist.peers.getD j default).completion_round = none ∧
          st'.dist.number_seeds ≤ j := by
    rw [f1, f3]
    rw [schedulePeer] at h
    by_cases hcomp : (getPeer st.dist i).completion_round.isSome
    · rw [if_pos hcomp] at h
      simp only [Except.ok.injEq, Prod.mk.injEq] at h
      obtain ⟨hst, -⟩ := h
      subst hst
      exact hinv.dlOk
    · rw [if_neg hcomp] at h
      cases hdl : (getPeer st.dist i).current_download with
      | some dl =>
        rw [hdl] at h
        simp only [] at h
        split_ifs at h with hz
        simp only [Except.ok.injEq, Prod.mk.injEq] at h
        obtain ⟨hst, -⟩ := h
        subst hst
        have hiP : i < st.dist.peers.length := by
          by_contra hge
          have hd : getPeer st.dist i = default := by
            unfold getPeer
            exact List.getD_eq_default _ _ (by omega)
          rw [hd] at hdl
          cases hdl
        have hmem : dl ∈ (st.dist.peers.getD i default).current_download.toList := by
          unfold getPeer at hdl
          rw [hdl]
          exact List.mem_singleton.mpr rfl
        have hi := hinv.dlOk i hiP dl hmem
        exact dlOk_after_attach st.dist.peers st.dist.chunks.length
          st.dist.number_seeds i dl.source_peer _ hinv.dlOk
          ⟨hi.1, hi.2.1, hi.2.2.1, hi.2.2.2.1, hi.2.2.2.2⟩
      | none =>
        rw [hdl] at h
        simp only [] at h
        split at h
        · next c s cap heq =>
          simp only [Except.ok.injEq, Prod.mk.injEq] at h
          obtain ⟨hst, -⟩ := h
          subst hst
          obtain ⟨hcm, hcposs⟩ := chunkSearch_weak st.dist i _ _ c s cap heq
          have hcC : c < st.dist.chunks.length := by
            have hp1 := strategyOrder_perm S (getPeer st.dist i).strategy
              (randomizeChunks S
                (fun c => (getChunk st.dist c).number_possessing_peers)
                st.rho st.temp)
            have hp2 := randomizeChunks_perm S
              (fun c => (getChunk st.dist c).number_possessing_peers)
              st.rho st.temp
            have : c ∈ List.range st.dist.chunks.length :=
              (hp1.trans (hp2.trans hinv.tempPerm)).mem_iff.mp hcm
            simpa using this
          exact dlOk_after_attach st.dist.peers st.dist.chunks.length
            st.dist.number_seeds i s _ hinv.dlOk
            ⟨rfl, hcC, hcposs, Option.not_isSome_iff_eq_none.mp hcomp, hsi⟩
        · next heq =>
          simp only [Except.ok.injEq, Prod.mk.injEq] at h
          obtain ⟨hst, -⟩ := h
          subst hst
          exact hinv.dlOk
  refine ⟨?_, ?_, hdlOk, ?_, ?_, ?_⟩
  · intro j hj
    rw [(core_fields_eq _ _ f2 j).2.2.1, f1]
    exact hinv.possLen j (by omega)
  · intro c hc
    rw [f1] at hc ⊢
    rw [countP_of_poss_eq _ _ c (poss_of_core _ _ f2)]
    exact hinv.counts c hc
  · rw [f5, f3]
    exact hinv.shufSeed
  · rw [f5, f3, hplen]
    exact hinv.shufRest
  · rw [f1]
    exact f8.trans hinv.tempPerm

/-- The whole scheduling loop preserves the invariant when every scheduled
position is a non-seed. -/
theorem schedulePeers_inv (S : Shuffler σ) :
    ∀ (order : List Nat) (st : Sim σ) (exch : Nat) (st' : Sim σ) (exch' : Nat),
      (∀ i ∈ order, st.dist.number_seeds ≤ i) → SimInv st →
      schedulePeers S order st exch = Except.ok (st', exch') → SimInv st' := by
  intro order
  induction order with
  | nil =>
    intro st exch st' exch' _ hinv h
    rw [schedulePeers] at h
    simp only [Except.ok.injEq, Prod.mk.injEq] at h
    obtain ⟨hst, -⟩ := h
    subst hst
    exact hinv
  | cons i rest ih =>
    intro st exch st' exch' hseeds hinv h
    rw [schedulePeers] at h
    cases hsp : schedulePeer S st exch i with
    | error e => rw [hsp] at h; cases h
    | ok pr =>
      rw [hsp] at h
      have hinv1 := schedulePeer_inv S st exch i pr.1 pr.2
        (hseeds i (List.mem_cons_self _ _)) hinv hsp
      have hseeds1 : ∀ k ∈ rest, pr.1.dist.number_seeds ≤ k := by
        intro k hk
        rw [(schedulePeer_frame S st exch i pr.1 pr.2 hsp).2.2.1]
        exact hseeds k (List.mem_cons_of_mem _ hk)
      exact ih pr.1 pr.2 st' exch' hseeds1 hinv1 h

/-- Steps 1-3 of a round preserve the invariant, the chunk list, and every
`peerCore` field. -/
theorem roundScheduled_inv (S : Shuffler σ) (st st₁ : Sim σ) (exch : Nat)
    (hinv : SimInv st) (h : roundScheduled S st = Except.ok (st₁, exch)) :
    SimInv st₁
    ∧ st₁.dist.chunks = st.dist.chunks
    ∧ st₁.dist.peers.map peerCore = st.dist.peers.map peerCore
    ∧ st₁.dist.number_seeds = st.dist.number_seeds
    ∧ st₁.dist.chunk_size = st.dist.chunk_size
    ∧ st₁.rounds = st.rounds
    ∧ st₁.current = st.current := by
  rw [roundScheduled] at h
  simp only [] at h
  have htakelen : (st.shuffled.take st.dist.number_seeds).length =
      st.dist.number_seeds := by
    rw [hinv.shufSeed.length_eq, List.length_range]
  have ha := applyShuffle_perm S st.rho (st.shuffled.take st.dist.number_seeds)
  have hb := applyShuffle_perm S
    (applyShuffle S st.rho (st.shuffled.take st.dist.number_seeds)).2
    (st.shuffled.drop st.dist.number_seeds)
  have halen : (applyShuffle S st.rho
      (st.shuffled.take st.dist.number_seeds)).1.length =
      st.dist.number_seeds := by
    rw [ha.length_eq, htakelen]
  have htake : ((applyShuffle S st.rho
        (st.shuffled.take st.dist.number_seeds)).1
      ++ (applyShuffle S
        (applyShuffle S st.rho (st.shuffled.take st.dist.number_seeds)).2
        (st.shuffled.drop st.dist.number_seeds)).1).take st.dist.number_seeds =
      (applyShuffle S st.rho (st.shuffled.take st.dist.number_seeds)).1 :=
    List.take_left' halen
  have hdrop : ((applyShuffle S st.rho
        (st.shuffled.take st.dist.number_seeds)).1
      ++ (applyShuffle S
        (applyShuffle S st.rho (st.shuffled.take st.dist.number_seeds)).2
        (st.shuffled.drop st.dist.number_seeds)).1).drop st.dist.number_seeds =
      (applyShuffle S
        (applyShuffle S st.rho (st.shuffled.take st.dist.number_seeds)).2
        (st.shuffled.drop st.dist.number_seeds)).1 :=
    List.drop_left' halen
  have hinv0 : SimInv ({ st with
      events := st.events ++ [Event.roundStart st.rounds.length],
      shuffled := (applyShuffle S st.rho
          (st.shuffled.take st.dist.number_seeds)).1
        ++ (applyShuffle S
          (applyShuffle S st.rho (st.shuffled.take st.dist.number_seeds)).2
          (st.shuffled.drop st.dist.number_seeds)).1,
      temp := sortByKey
        (fun c => (getChunk st.dist c).number_possessing_peers) st.temp,
      rho := (applyShuffle S
        (applyShuffle S st.rho (st.shuffled.take st.dist.number_seeds)).2
        (st.shuffled.drop st.dist.number_seeds)).2 } : Sim σ) := by
    refine ⟨hinv.possLen, hinv.counts, hinv.dlOk, ?_, ?_, ?_⟩
    · show List.Perm (List.take st.dist.number_seeds _) _
      rw [htake]
      exact ha.trans hinv.shufSeed
    · show List.Perm (List.drop st.dist.number_seeds _) _
      rw [hdrop]
      exact hb.trans hinv.shufRest
    · exact (sortByKey_perm _ _).trans hinv.tempPerm
  have horder : ∀ i ∈ ((applyShuffle S st.rho
        (st.shuffled.take st.dist.number_seeds)).1
      ++ (applyShuffle S
        (applyShuffle S st.rho (st.shuffled.take st.dist.number_seeds)).2
        (st.shuffled.drop st.dist.number_seeds)).1).drop st.dist.number_seeds,
      st.dist.number_seeds ≤ i := by
    intro i hi
    rw [hdrop] at hi
    have : i ∈ List.range' st.dist.number_seeds
        (st.dist.peers.length - st.dist.number_seeds) :=
      (hb.trans hinv.shufRest).mem_iff.mp hi
    exact (List.mem_range'_1.mp this).1
  refine ⟨schedulePeers_inv S _ ({ st with
      events := st.events ++ [Event.roundStart st.rounds.length],
      shuffled := (applyShuffle S st.rho
          (st.shuffled.take st.dist.number_seeds)).1
        ++ (applyShuffle S
          (applyShuffle S st.rho (st.shuffled.take st.dist.number_seeds)).2
          (st.shuffled.drop st.dist.number_seeds)).1,
      temp := sortByKey
        (fun c => (getChunk st.dist c).number_possessing_peers) st.temp,
      rho := (applyShuffle S
        (applyShuffle S st.rho (st.shuffled.take st.dist.number_seeds)).2
        (st.shuffled.drop st.dist.number_seeds)).2 } : Sim σ)
      0 st₁ exch horder hinv0 h, ?_⟩
  obtain ⟨f1, f2, f3, f4, -, f6, f7, -⟩ :=
    schedulePeers_frame S _ _ 0 st₁ exch h
  exact ⟨f1, f2, f3, f4, f6, f7⟩

/-- Everything the completion sweep does to a single peer.  `hdl` supplies
the invariant facts about the peer's active download (in-range chunk the
peer does not yet possess); `hlen` the bitmap length. -/
theorem sweepOne_spec (cs n r : Nat) (p : Peer) (chunks : List Chunk)
    (hlen : p.possessed_chunks.length = chunks.length)
    (hdl : ∀ dl ∈ p.current_download.toList,
      dl.chunk_number < chunks.length ∧
        p.possessed_chunks.getD dl.chunk_number false = false) :
    (sweepOne cs n r p chunks).2.1.length = chunks.length
    ∧ (∀ c, ((sweepOne cs n r p chunks).2.1.getD c default).number_possessing_peers
        + Bool.toNat (p.possessed_chunks.getD c false) =
        (chunks.getD c default).number_possessing_peers
        + Bool.toNat ((sweepOne cs n r p chunks).1.possessed_chunks.getD c false))
    ∧ (∀ c, (chunks.getD c default).number_possessing_peers ≤
        ((sweepOne cs n r p chunks).2.1.getD c default).number_possessing_peers)
    ∧ (∀ c, p.possessed_chunks.getD c false = true →
        (sweepOne cs n r p chunks).1.possessed_chunks.getD c false = true)
    ∧ sweepCore (sweepOne cs n r p chunks).1 = sweepCore p
    ∧ (∀ dl ∈ (sweepOne cs n r p chunks).2.2.2.1, p.current_download = some dl)
    ∧ (∀ dl, (sweepOne cs n r p chunks).1.current_download = some dl →
        p.current_download = some dl
        ∧ (sweepOne cs n r p chunks).1.possessed_chunks.getD
            dl.chunk_number false = p.possessed_chunks.getD dl.chunk_number false
        ∧ (sweepOne cs n r p chunks).1.completion_round = p.completion_round)
    ∧ (p.current_download = none → (sweepOne cs n r p chunks).1 = p)
    ∧ (sweepOne cs n r p chunks).1.possessed_chunks.length =
        p.possessed_chunks.length
    ∧ ((sweepOne cs n r p chunks).1.completion_round = p.completion_round
        ∨ (sweepOne cs n r p chunks).1.completion_round = some r) := by
  cases hd : p.current_download with
  | none =>
    have hres : sweepOne cs n r p chunks = (p, chunks, [], [], 0, 0) := by
      unfold sweepOne Peer.check_chunk_download_finished
      rw [hd]
    rw [hres]
    exact ⟨rfl, fun c => rfl, fun c => le_refl _, fun c hb => hb, rfl,
      fun dl' hdl' => absurd hdl' (List.not_mem_nil dl'),
      fun dl' hdl' => ⟨hd ▸ hdl', rfl, rfl⟩, fun _ => rfl, rfl, Or.inl rfl⟩
  | some dl =>
    obtain ⟨hdc, hdb⟩ := hdl dl (by rw [hd]; exact List.mem_singleton.mpr rfl)
    by_cases hfin : cs ≤ dl.downloaded_size
    · have h1 : (sweepOne cs n r p chunks).1 =
          (if (p.possessed_chunks.set dl.chunk_number true).all (fun b => b) then
            { p with
              possessed_chunks := p.possessed_chunks.set dl.chunk_number true,
              current_download := none, completion_round := some r }
          else
            { p with
              possessed_chunks := p.possessed_chunks.set dl.chunk_number true,
              current_download := none }) := by
        unfold sweepOne Peer.check_chunk_download_finished
        rw [hd]
        simp only [hfin, if_true]
        split_ifs <;> rfl
      have h2 : (sweepOne cs n r p chunks).2.1 =
          (if ((modifyAt chunks dl.chunk_number (fun c =>
              { c with number_possessing_peers :=
                  c.number_possessing_peers + 1 })).getD dl.chunk_number
                default).number_possessing_peers = n then
            modifyAt (modifyAt chunks dl.chunk_number (fun c =>
              { c with number_possessing_peers :=
                  c.number_possessing_peers + 1 })) dl.chunk_number
              (fun c => { c with completion_round := some r })
          else
            modifyAt chunks dl.chunk_number (fun c =>
              { c with number_possessing_peers :=
                  c.number_possessing_peers + 1 })) := by
        unfold sweepOne Peer.check_chunk_download_finished
        rw [hd]
        simp only [hfin, if_true]
        split_ifs <;> rfl
      have h3 : (sweepOne cs n r p chunks).2.2.2.1 = [dl] := by
        unfold sweepOne Peer.check_chunk_download_finished
        rw [hd]
        simp only [hfin, if_true]
      have hp' : (sweepOne cs n r p chunks).1.possessed_chunks =
          p.possessed_chunks.set dl.chunk_number true := by
        rw [h1]
        split_ifs <;> rfl
      have hdown : (sweepOne cs n r p chunks).1.current_download = none := by
        rw [h1]
        split_ifs <;> rfl
      have hbit : ∀ c, (p.possessed_chunks.set dl.chunk_number true).getD c false =
          (if c = dl.chunk_number then true
            else p.possessed_chunks.getD c false) := by
        intro c
        rw [set_eq_modifyAt, getD_modifyAt]
        by_cases hc1 : c = dl.chunk_number
        · rw [if_pos ⟨hc1, by omega⟩, if_pos hc1]
        · rw [if_neg (fun hx => hc1 hx.1), if_neg hc1]
      have hcnt1 : ∀ c, ((modifyAt chunks dl.chunk_number (fun c =>
          { c with number_possessing_peers :=
              c.number_possessing_peers + 1 })).getD c
            default).number_possessing_peers =
          (if c = dl.chunk_number then
            (chunks.getD c default).number_possessing_peers + 1
          else (chunks.getD c default).number_possessing_peers) := by
        intro c
        rw [getD_modifyAt]
        by_cases hc1 : c = dl.chunk_number
        · rw [if_pos ⟨hc1, by omega⟩, if_pos hc1]
        · rw [if_neg (fun hx => hc1 hx.1), if_neg hc1]
      have hdone : ∀ c, ((modifyAt (modifyAt chunks dl.chunk_number (fun c =>
          { c with number_possessing_peers :=
              c.number_possessing_peers + 1 })) dl.chunk_number
            (fun c => { c with completion_round := some r })).getD c
              default).number_possessing_peers =
          ((modifyAt chunks dl.chunk_number (fun c =>
            { c with number_possessing_peers :=
                c.number_possessing_peers + 1 })).getD c
              default).number_possessing_peers := by
        intro c
        rw [getD_modifyAt]
        split_ifs <;> rfl
      have hc2 : ∀ c, ((sweepOne cs n r p chunks).2.1.getD c
          default).number_possessing_peers =
          (if c = dl.chunk_number then
            (chunks.getD c default).number_possessing_peers + 1
          else (chunks.getD c default).number_possessing_peers) := by
        intro c
        rw [h2]
        by_cases hcn : ((modifyAt chunks dl.chunk_number (fun c =>
            { c with number_possessing_peers :=
                c.number_possessing_peers + 1 })).getD dl.chunk_number
              default).number_possessing_peers = n
        · rw [if_pos hcn, hdone c, hcnt1 c]
        · rw [if_neg hcn, hcnt1 c]
      refine ⟨?_, ?_, ?_, ?_, ?_, ?_, ?_, ?_, ?_, ?_⟩
      · rw [h2]
        split_ifs <;> simp [length_modifyAt]
      · intro c
        rw [hc2 c, hp', hbit c]
        split_ifs with hb1
        · subst hb1
          rw [hdb]
          simp
        · rfl
      · intro c
        rw [hc2 c]
        split_ifs <;> omega
      · intro c hb
        rw [hp', hbit c]
        split_ifs with hb1
        · rfl
        · exact hb
      · rw [h1]
        split_ifs <;> rfl
      · rw [h3]
        intro dl' hdl'
        cases List.mem_singleton.mp hdl'
        rfl
      · intro dl' hdl'
        rw [hdown] at hdl'
        exact Option.noConfusion hdl'
      · intro hnone
        exact Option.noConfusion hnone
      · rw [hp']
        simp
      · rw [h1]
        split_ifs
        · exact Or.inr rfl
        · exact Or.inl rfl
    · have hres : sweepOne cs n r p chunks = (p, chunks, [], [], 0, 0) := by
        unfold sweepOne Peer.check_chunk_download_finished
        rw [hd]
        simp only [hfin, if_false]
      rw [hres]
      exact ⟨rfl, fun c => rfl, fun c => le_refl _, fun c hb => hb, rfl,
        fun dl' hdl' => absurd hdl' (List.not_mem_nil dl'),
        fun dl' hdl' => ⟨hd.symm.trans hdl', rfl, rfl⟩, fun _ => rfl, rfl,
        Or.inl rfl⟩

/-- `countP` over a cons, with the head's contribution as `Bool.toNat`. -/
theorem countP_cons_toNat (f : α → Bool) (x : α) (l : List α) :
    (x :: l).countP f = l.countP f + (f x).toNat := by
  rw [List.countP_cons]
  cases hfx : f x <;> simp

/-- A list member sits at some in-range position (in `getD` form). -/
theorem mem_getD_exists (l : List α) (d p : α) (h : p ∈ l) :
    ∃ j, j < l.length ∧ l.getD j d = p := by
  obtain ⟨i, hi, hget⟩ := List.getElem_of_mem h
  exact ⟨i, hi, by
    rw [List.getD_eq_getElem?_getD, List.getElem?_eq_getElem hi,
      Option.getD_some, hget]⟩

/-- Everything the completion sweep does to the whole peer list: lengths
are preserved; the possession-count deltas on the chunk side exactly match
the new possession bits on the peer side; counts only grow; the
sweep-invariant peer fields survive; every finished download was some
peer's active download; and per position, bits only turn on, a surviving
download is the old one over an unchanged bit and completion mark, a peer
with no download is untouched, and a completion mark is either kept or set
to the current round. -/
theorem sweepGo_spec (cs n r : Nat) :
    ∀ (ps : List Peer) (chunks : List Chunk),
      (∀ p ∈ ps, p.possessed_chunks.length = chunks.length ∧
        ∀ dl ∈ p.current_download.toList,
          dl.chunk_number < chunks.length ∧
            p.possessed_chunks.getD dl.chunk_number false = false) →
      (sweepGo cs n r ps chunks).1.length = ps.length
      ∧ (sweepGo cs n r ps chunks).2.1.length = chunks.length
      ∧ (∀ c,
          ((sweepGo cs n r ps chunks).2.1.getD c default).number_possessing_peers
            + ps.countP (fun q => q.possessed_chunks.getD c false) =
          (chunks.getD c default).number_possessing_peers
            + (sweepGo cs n r ps chunks).1.countP
                (fun q => q.possessed_chunks.getD c false))
      ∧ (∀ c, (chunks.getD c default).number_possessing_peers ≤
          ((sweepGo cs n r ps chunks).2.1.getD c default).number_possessing_peers)
      ∧ (sweepGo cs n r ps chunks).1.map sweepCore = ps.map sweepCore
      ∧ (∀ u ∈ (sweepGo cs n r ps chunks).2.2.2.1, ∃ t, t < ps.length ∧
          (ps.getD t default).current_download = some u)
      ∧ (∀ j,
          ((sweepGo cs n r ps chunks).1.getD j default).possessed_chunks.length
            = (ps.getD j default).possessed_chunks.length
          ∧ (∀ c, (ps.getD j default).possessed_chunks.getD c false = true →
              ((sweepGo cs n r ps chunks).1.getD j
                default).possessed_chunks.getD c false = true)
          ∧ (∀ dl, ((sweepGo cs n r ps chunks).1.getD j
                default).current_download = some dl →
              (ps.getD j default).current_download = some dl
              ∧ ((sweepGo cs n r ps chunks).1.getD j
                  default).possessed_chunks.getD dl.chunk_number false
                = (ps.getD j default).possessed_chunks.getD dl.chunk_number false
              ∧ ((sweepGo cs n r ps chunks).1.getD j default).completion_round
                = (ps.getD j default).completion_round)
          ∧ ((ps.getD j default).current_download = none →
              (sweepGo cs n r ps chunks).1.getD j default = ps.getD j default)
          ∧ (((sweepGo cs n r ps chunks).1.getD j default).completion_round
                = (ps.getD j default).completion_round
              ∨ ((sweepGo cs n r ps chunks).1.getD j default).completion_round
                = some r)) := by
  intro ps
  induction ps with
  | nil =>
    intro chunks hyp
    exact ⟨rfl, rfl, fun c => rfl, fun c => le_refl _, rfl,
      fun u hu => absurd hu (List.not_mem_nil u),
      fun j => ⟨rfl, fun c hb => hb, fun dl hdl => ⟨hdl, rfl, rfl⟩,
        fun _ => rfl, Or.inl rfl⟩⟩
  | cons p ps ih =>
    intro chunks hyp
    obtain ⟨hplen, hpdl⟩ := hyp p (List.mem_cons_self _ _)
    obtain ⟨A1, A2, A3, A4, A5, A6, A7, A8, A9, A10⟩ :=
      sweepOne_spec cs n r p chunks hplen hpdl
    have hyp' : ∀ q ∈ ps,
        q.possessed_chunks.length = (sweepOne cs n r p chunks).2.1.length ∧
        ∀ dl ∈ q.current_download.toList,
          dl.chunk_number < (sweepOne cs n r p chunks).2.1.length ∧
            q.possessed_chunks.getD dl.chunk_number false = false := by
      intro q hq
      obtain ⟨h1, h2⟩ := hyp q (List.mem_cons_of_mem _ hq)
      rw [A1]
      exact ⟨h1, h2⟩
    obtain ⟨B1, B2, B3, B4, B5, B6, B7⟩ :=
      ih (sweepOne cs n r p chunks).2.1 hyp'
    have g1 : (sweepGo cs n r (p :: ps) chunks).1
        = (sweepOne cs n r p chunks).1 ::
          (sweepGo cs n r ps (sweepOne cs n r p chunks).2.1).1 := rfl
    have g2 : (sweepGo cs n r (p :: ps) chunks).2.1
        = (sweepGo cs n r ps (sweepOne cs n r p chunks).2.1).2.1 := rfl
    have g4 : (sweepGo cs n r (p :: ps) chunks).2.2.2.1
        = (sweepOne cs n r p chunks).2.2.2.1 ++
          (sweepGo cs n r ps (sweepOne cs n r p chunks).2.1).2.2.2.1 := rfl
    refine ⟨?_, ?_, ?_, ?_, ?_, ?_, ?_⟩
    · rw [g1, List.length_cons, B1, List.length_cons]
    · rw [g2, B2, A1]
    · intro c
      have h1 := B3 c
      have h2 := A2 c
      simp only [g2, g1, countP_cons_toNat]
      omega
    · intro c
      rw [g2]
      exact le_trans (A3 c) (B4 c)
    · rw [g1, List.map_cons, A5, B5, List.map_cons]
    · intro u hu
      rw [g4] at hu
      rcases List.mem_append.mp hu with hu | hu
      · exact ⟨0, Nat.succ_pos _, A6 u hu⟩
      · obtain ⟨t, ht, hdl⟩ := B6 u hu
        exact ⟨t + 1, by simpa using ht, hdl⟩
    · intro j
      rw [g1]
      cases j with
      | zero =>
        exact ⟨A9, A4, A7, A8, A10⟩
      | succ t => exact B7 t

/-- Membership in an `Option`'s `toList` pins the option down. -/
theorem mem_toList_eq_some (o : Option α) (a : α) (h : a ∈ o.toList) :
    o = some a := by
  cases o with
  | none => simp at h
  | some b => simp at h; rw [h]

/-- The source bookkeeping fold of `bookkeepPhase`, named for the lemmas
below. -/
def bookFold (fins : List Download) (d : Distribution) : Distribution :=
  fins.foldl (fun d u => modifyPeer d u.source_peer
    (fun p => p.chunk_upload_finished u.chunk_number u.target_peer)) d

/-- Peer-list projection shared by equal `bookCore` images. -/
theorem poss_of_bookcore (l l' : List Peer)
    (h : l.map bookCore = l'.map bookCore) :
    l.map Peer.possessed_chunks = l'.map Peer.possessed_chunks := by
  have := congrArg (List.map (fun x :
    Nat × Selfishness × Strategy × Nat × Option Nat × List Bool × Option Download =>
      x.2.2.2.2.2.1)) h
  simpa [List.map_map, Function.comp, bookCore] using this

/-- Componentwise consequences of an equal `bookCore` image at any
position. -/
theorem book_fields_eq (l l' : List Peer)
    (h : l.map bookCore = l'.map bookCore) (j : Nat) :
    (l.getD j default).selfishness = (l'.getD j default).selfishness
    ∧ (l.getD j default).completion_round = (l'.getD j default).completion_round
    ∧ (l.getD j default).possessed_chunks = (l'.getD j default).possessed_chunks
    ∧ (l.getD j default).current_download = (l'.getD j default).current_download := by
  have hc := getD_of_map_eq bookCore l l' h j default
  exact ⟨congrArg (fun x :
      Nat × Selfishness × Strategy × Nat × Option Nat × List Bool × Option Download =>
        x.2.1) hc,
    congrArg (fun x :
      Nat × Selfishness × Strategy × Nat × Option Nat × List Bool × Option Download =>
        x.2.2.2.2.1) hc,
    congrArg (fun x :
      Nat × Selfishness × Strategy × Nat × Option Nat × List Bool × Option Download =>
        x.2.2.2.2.2.1) hc,
    congrArg (fun x :
      Nat × Selfishness × Strategy × Nat × Option Nat × List Bool × Option Download =>
        x.2.2.2.2.2.2) hc⟩

/-- The bookkeeping fold never touches the chunk list, the configuration
scalars, or any `bookCore` peer field. -/
theorem bookFold_frame (fins : List Download) :
    ∀ d : Distribution,
      (bookFold fins d).chunks = d.chunks
      ∧ (bookFold fins d).number_seeds = d.number_seeds
      ∧ (bookFold fins d).chunk_size = d.chunk_size
      ∧ (bookFold fins d).peers.map bookCore = d.peers.map bookCore := by
  induction fins with
  | nil => intro d; exact ⟨rfl, rfl, rfl, rfl⟩
  | cons u us ih =>
    intro d
    have hstep := ih (modifyPeer d u.source_peer
      (fun p => p.chunk_upload_finished u.chunk_number u.target_peer))
    refine ⟨hstep.1, hstep.2.1, hstep.2.2.1, hstep.2.2.2.trans ?_⟩
    exact map_modifyAt _ _ _ bookCore
      (fun q => bookCore_chunk_upload_finished q _ _)

/-- A position no finished download names as source is untouched by the
bookkeeping fold. -/
theorem bookFold_untouched (j : Nat) (fins : List Download) :
    ∀ d : Distribution, (∀ u ∈ fins, u.source_peer ≠ j) →
      (bookFold fins d).peers.getD j default = d.peers.getD j default := by
  induction fins with
  | nil => intro d _; rfl
  | cons u us ih =>
    intro d hsrc
    have h1 := ih (modifyPeer d u.source_peer
      (fun p => p.chunk_upload_finished u.chunk_number u.target_peer))
      (fun v hv => hsrc v (List.mem_cons_of_mem _ hv))
    refine h1.trans ?_
    exact getD_modifyAt_ne _ _ _ _ _
      (fun hji => hsrc u (List.mem_cons_self _ _) hji.symm)

/-- Step 5 of the round: the bookkeeping preserves the invariant, the chunk
list, every `bookCore` field and the non-distribution state, and leaves any
position untouched that no finished download names as its source. -/
theorem bookkeepPhase_spec (st : Sim σ) (fins : List Download)
    (hinv : SimInv st) :
    SimInv (bookkeepPhase st fins)
    ∧ (bookkeepPhase st fins).dist.chunks = st.dist.chunks
    ∧ (bookkeepPhase st fins).dist.peers.map bookCore
        = st.dist.peers.map bookCore
    ∧ (∀ j, (∀ u ∈ fins, u.source_peer ≠ j) →
        (bookkeepPhase st fins).dist.peers.getD j default
          = st.dist.peers.getD j default) := by
  have hD : (bookkeepPhase st fins).dist = bookFold fins st.dist := rfl
  obtain ⟨f1, f2, f3, f4⟩ := bookFold_frame fins st.dist
  have hlen : (bookFold fins st.dist).peers.length = st.dist.peers.length := by
    rw [← List.length_map _ bookCore, f4, List.length_map]
  have hfs := fun j => book_fields_eq _ _ f4 j
  refine ⟨⟨?_, ?_, ?_, ?_, ?_, ?_⟩, by rw [hD]; exact f1, by rw [hD]; exact f4,
    ?_⟩
  · intro j hj
    rw [hD] at hj ⊢
    rw [(hfs j).2.2.1, f1]
    exact hinv.possLen j (by rw [hlen] at hj; exact hj)
  · intro c hc
    rw [hD] at hc ⊢
    rw [f1] at hc ⊢
    rw [hinv.counts c hc]
    exact (countP_of_poss_eq _ _ c (poss_of_bookcore _ _ f4)).symm
  · intro j hj dl hdl
    rw [hD] at hj hdl ⊢
    rw [(hfs j).2.2.2] at hdl
    obtain ⟨o1, o2, o3, o4, o5⟩ := hinv.dlOk j (by rw [hlen] at hj; exact hj)
      dl hdl
    exact ⟨o1, by rw [f1]; exact o2, by rw [(hfs j).2.2.1]; exact o3,
      by rw [(hfs j).2.1]; exact o4, by rw [f2]; exact o5⟩
  · show List.Perm (st.shuffled.take (bookFold fins st.dist).number_seeds)
      (List.range (bookFold fins st.dist).number_seeds)
    rw [f2]
    exact hinv.shufSeed
  · show List.Perm (st.shuffled.drop (bookFold fins st.dist).number_seeds)
      (List.range' (bookFold fins st.dist).number_seeds
        ((bookFold fins st.dist).peers.length -
          (bookFold fins st.dist).number_seeds))
    rw [f2, hlen]
    exact hinv.shufRest
  · show List.Perm st.temp (List.range (bookFold fins st.dist).chunks.length)
    rw [f1]
    exact hinv.tempPerm
  · intro j hj
    rw [hD]
    exact bookFold_untouched j fins st.dist hj

/-- Step 4 of the round: the completion sweep preserves the invariant,
only grows possession counts and bits, keeps every `sweepCore` field,
reports only downloads that were some peer's active transfer, and keeps or
freshly sets each completion mark. -/
theorem sweepPhase_spec (st : Sim σ) (hinv : SimInv st) :
    SimInv (sweepPhase st).1
    ∧ (∀ c, (st.dist.chunks.getD c default).number_possessing_peers ≤
        ((sweepPhase st).1.dist.chunks.getD c default).number_possessing_peers)
    ∧ (∀ j c,
        (st.dist.peers.getD j default).possessed_chunks.getD c false = true →
        ((sweepPhase st).1.dist.peers.getD j
          default).possessed_chunks.getD c false = true)
    ∧ (sweepPhase st).1.dist.peers.map sweepCore = st.dist.peers.map sweepCore
    ∧ (∀ u ∈ (sweepPhase st).2.1, ∃ t, t < st.dist.peers.length ∧
        (st.dist.peers.getD t default).current_download = some u)
    ∧ (∀ j, ((sweepPhase st).1.dist.peers.getD j default).completion_round
          = (st.dist.peers.getD j default).completion_round
        ∨ ((sweepPhase st).1.dist.peers.getD j default).completion_round
          = some st.rounds.length) := by
  have hhyp : ∀ p ∈ st.dist.peers,
      p.possessed_chunks.length = st.dist.chunks.length ∧
      ∀ dl ∈ p.current_download.toList,
        dl.chunk_number < st.dist.chunks.length ∧
          p.possessed_chunks.getD dl.chunk_number false = false := by
    intro p hp
    obtain ⟨j, hj, hget⟩ := mem_getD_exists st.dist.peers default p hp
    refine ⟨by rw [← hget]; exact hinv.possLen j hj, ?_⟩
    intro dl hdl
    have hfacts := hinv.dlOk j hj dl (by rw [hget]; exact hdl)
    exact ⟨hfacts.2.1, by rw [← hget]; exact hfacts.2.2.1⟩
  obtain ⟨B1, B2, B3, B4, B5, B6, B7⟩ :=
    sweepGo_spec st.dist.chunk_size st.dist.peers.length st.rounds.length
      st.dist.peers st.dist.chunks hhyp
  have hP : (sweepPhase st).1.dist.peers = (sweepGo st.dist.chunk_size
      st.dist.peers.length st.rounds.length st.dist.peers st.dist.chunks).1 :=
    rfl
  have hC : (sweepPhase st).1.dist.chunks = (sweepGo st.dist.chunk_size
      st.dist.peers.length st.rounds.length st.dist.peers st.dist.chunks).2.1 :=
    rfl
  have hF : (sweepPhase st).2.1 = (sweepGo st.dist.chunk_size
      st.dist.peers.length st.rounds.length st.dist.peers
      st.dist.chunks).2.2.2.1 := rfl
  refine ⟨⟨?_, ?_, ?_, ?_, ?_, ?_⟩, ?_, ?_, ?_, ?_, ?_⟩
  · intro j hj
    rw [hP] at hj ⊢
    rw [hC, (B7 j).1, B2]
    exact hinv.possLen j (by rw [B1] at hj; exact hj)
  · intro c hc
    rw [hC] at hc ⊢
    rw [hP]
    have h1 := B3 c
    have h2 := hinv.counts c (by rw [B2] at hc; exact hc)
    omega
  · intro j hj dl hdl
    rw [hP] at hj hdl ⊢
    rw [hC]
    have hj' : j < st.dist.peers.length := by rw [B1] at hj; exact hj
    have hsome := mem_toList_eq_some _ _ hdl
    obtain ⟨hold, hbitpres, hcomppres⟩ := (B7 j).2.2.1 dl hsome
    obtain ⟨o1, o2, o3, o4, o5⟩ := hinv.dlOk j hj' dl (by rw [hold]; simp)
    exact ⟨o1, by rw [B2]; exact o2, by rw [hbitpres]; exact o3,
      by rw [hcomppres]; exact o4, o5⟩
  · show List.Perm (st.shuffled.take st.dist.number_seeds) _
    exact hinv.shufSeed
  · show List.Perm (st.shuffled.drop st.dist.number_seeds)
      (List.range' st.dist.number_seeds
        ((sweepPhase st).1.dist.peers.length - st.dist.number_seeds))
    rw [hP, B1]
    exact hinv.shufRest
  · show List.Perm st.temp (List.range (sweepPhase st).1.dist.chunks.length)
    rw [hC, B2]
    exact hinv.tempPerm
  · intro c
    rw [hC]
    exact B4 c
  · intro j c hb
    rw [hP]
    exact (B7 j).2.1 c hb
  · rw [hP]
    exact B5
  · intro u hu
    rw [hF] at hu
    exact B6 u hu
  · intro j
    rw [hP]
    exact (B7 j).2.2.2.2

/-- Componentwise consequences of an equal `sweepCore` image at any
position. -/
theorem sweep_fields_eq (l l' : List Peer)
    (h : l.map sweepCore = l'.map sweepCore) (j : Nat) :
    (l.getD j default).selfishness = (l'.getD j default).selfishness
    ∧ (l.getD j default).number_uploads = (l'.getD j default).number_uploads
    ∧ (l.getD j default).current_uploads = (l'.getD j default).current_uploads := by
  have hc := getD_of_map_eq sweepCore l l' h j default
  exact ⟨congrArg (fun x :
      Nat × Selfishness × Strategy × Nat × Nat × List Download =>
        x.2.1) hc,
    congrArg (fun x :
      Nat × Selfishness × Strategy × Nat × Nat × List Download =>
        x.2.2.2.2.1) hc,
    congrArg (fun x :
      Nat × Selfishness × Strategy × Nat × Nat × List Download =>
        x.2.2.2.2.2) hc⟩

/-- Steps 4-6 of a round preserve the invariant, only grow possession
counts and bits, preserve every cooperation policy, keep or freshly set
each completion mark, and leave the upload counter of any peer no
round-start transfer names as source unchanged. -/
theorem roundFinish_spec (st₁ : Sim σ) (exch : Nat) (hinv : SimInv st₁) :
    SimInv (roundFinish st₁ exch)
    ∧ (∀ c, (st₁.dist.chunks.getD c default).number_possessing_peers ≤
        ((roundFinish st₁ exch).dist.chunks.getD c
          default).number_possessing_peers)
    ∧ (∀ j c,
        (st₁.dist.peers.getD j default).possessed_chunks.getD c false = true →
        ((roundFinish st₁ exch).dist.peers.getD j
          default).possessed_chunks.getD c false = true)
    ∧ (∀ j, ((roundFinish st₁ exch).dist.peers.getD j default).selfishness
        = (st₁.dist.peers.getD j default).selfishness)
    ∧ (∀ j, ((roundFinish st₁ exch).dist.peers.getD j default).completion_round
          = (st₁.dist.peers.getD j default).completion_round
        ∨ ((roundFinish st₁ exch).dist.peers.getD j default).completion_round
          = some st₁.rounds.length)
    ∧ (∀ j, (∀ t, t < st₁.dist.peers.length →
          ∀ dl ∈ (st₁.dist.peers.getD t default).current_download.toList,
            dl.source_peer ≠ j) →
        ((roundFinish st₁ exch).dist.peers.getD j default).number_uploads
          = (st₁.dist.peers.getD j default).number_uploads) := by
  obtain ⟨SP1, SP2, SP3, SP4, SP5, SP6⟩ := sweepPhase_spec st₁ hinv
  obtain ⟨BP1, BPch, BPmap, BPun⟩ :=
    bookkeepPhase_spec (sweepPhase st₁).1 (sweepPhase st₁).2.1 SP1
  have hbf := fun j => book_fields_eq _ _ BPmap j
  have hsf := fun j => sweep_fields_eq _ _ SP4 j
  refine ⟨⟨BP1.possLen, BP1.counts, BP1.dlOk, BP1.shufSeed, BP1.shufRest,
      BP1.tempPerm⟩, ?_, ?_, ?_, ?_, ?_⟩
  · intro c
    have hc : (roundFinish st₁ exch).dist.chunks
        = (sweepPhase st₁).1.dist.chunks := BPch
    rw [hc]
    exact SP2 c
  · intro j c hb
    have hp : ((roundFinish st₁ exch).dist.peers.getD j
          default).possessed_chunks
        = ((sweepPhase st₁).1.dist.peers.getD j default).possessed_chunks :=
      (hbf j).2.2.1
    rw [hp]
    exact SP3 j c hb
  · intro j
    have h1 : ((roundFinish st₁ exch).dist.peers.getD j default).selfishness
        = ((sweepPhase st₁).1.dist.peers.getD j default).selfishness :=
      (hbf j).1
    rw [h1]
    exact (hsf j).1
  · intro j
    have h1 : ((roundFinish st₁ exch).dist.peers.getD j
          default).completion_round
        = ((sweepPhase st₁).1.dist.peers.getD j default).completion_round :=
      (hbf j).2.1
    rw [h1]
    exact SP6 j
  · intro j hno
    have hfins : ∀ u ∈ (sweepPhase st₁).2.1, u.source_peer ≠ j := by
      intro u hu
      obtain ⟨t, ht, hdlt⟩ := SP5 u hu
      exact hno t ht u (by rw [hdlt]; simp)
    have h1 : ((roundFinish st₁ exch).dist.peers.getD j default)
        = ((sweepPhase st₁).1.dist.peers.getD j default) := BPun j hfins
    rw [h1]
    exact (hsf j).2.1

/-- One full non-aborting round preserves the invariant and only grows
possession counts and bits. -/
theorem roundStep_spec (S : Shuffler σ) (st st' : Sim σ) (hinv : SimInv st)
    (h : roundStep S st = Except.ok st') :
    SimInv st'
    ∧ (∀ c, (st.dist.chunks.getD c default).number_possessing_peers ≤
        (st'.dist.chunks.getD c default).number_possessing_peers)
    ∧ (∀ j c,
        (st.dist.peers.getD j default).possessed_chunks.getD c false = true →
        (st'.dist.peers.getD j default).possessed_chunks.getD c false
          = true) := by
  rw [roundStep] at h
  cases hrs : roundScheduled S st with
  | error e => rw [hrs] at h; cases h
  | ok pr =>
    obtain ⟨st₁, exch⟩ := pr
    rw [hrs] at h
    simp only [Except.ok.injEq] at h
    subst h
    obtain ⟨hinv₁, hch, hpc, -, -, -, -⟩ :=
      roundScheduled_inv S st st₁ exch hinv hrs
    obtain ⟨RF1, RF2, RF3, -, -, -⟩ := roundFinish_spec st₁ exch hinv₁
    refine ⟨RF1, ?_, ?_⟩
    · intro c
      rw [← hch]
      exact RF2 c
    · intro j c hb
      have hpos := (core_fields_eq st₁.dist.peers st.dist.peers hpc j).2.2.1
      exact RF3 j c (by rw [hpos]; exact hb)

/-- The whole fuelled loop, on its non-aborting runs, preserves the
invariant and only grows possession counts and bits. -/
theorem runLoop_mono (S : Shuffler σ) :
    ∀ (fuel : Nat) (st st' : Sim σ), SimInv st →
      runLoop S fuel st = Except.ok st' →
      SimInv st'
      ∧ (∀ c, (st.dist.chunks.getD c default).number_possessing_peers ≤
          (st'.dist.chunks.getD c default).number_possessing_peers)
      ∧ (∀ j c,
          (st.dist.peers.getD j default).possessed_chunks.getD c false = true →
          (st'.dist.peers.getD j default).possessed_chunks.getD c false
            = true) := by
  intro fuel
  induction fuel with
  | zero =>
    intro st st' hinv h
    rw [runLoop] at h
    simp only [Except.ok.injEq] at h
    subst h
    exact ⟨hinv, fun c => le_refl _, fun j c hb => hb⟩
  | succ fuel ih =>
    intro st st' hinv h
    rw [runLoop] at h
    split_ifs at h with hguard
    · cases hstep : roundStep S st with
      | error e => rw [hstep] at h; cases h
      | ok st₁ =>
        rw [hstep] at h
        obtain ⟨hinv₁, hc₁, hb₁⟩ := roundStep_spec S st st₁ hinv hstep
        obtain ⟨hinv₂, hc₂, hb₂⟩ := ih st₁ st' hinv₁ h
        exact ⟨hinv₂, fun c => le_trans (hc₁ c) (hc₂ c),
          fun j c hb => hb₂ j c (hb₁ j c hb)⟩
    · simp only [Except.ok.injEq] at h
      subst h
      exact ⟨hinv, fun c => le_refl _, fun j c hb => hb⟩

/-- `List.range'` under `drop`, stepping the start. -/
theorem drop_range'_aux :
    ∀ (m n s : Nat), (List.range' s n).drop m = List.range' (s + m) (n - m) := by
  intro m
  induction m with
  | zero => intro n s; simp
  | succ m ih =>
    intro n s
    cases n with
    | zero => simp
    | succ n =>
      rw [List.range'_succ, List.drop_succ_cons, ih n (s + 1),
        show n + 1 - (m + 1) = n - m from by omega,
        show s + (m + 1) = s + 1 + m from by omega]

theorem drop_range (m n : Nat) :
    (List.range n).drop m = List.range' m (n - m) := by
  rw [List.range_eq_range', drop_range'_aux, Nat.zero_add]

/-- Counting the sub-threshold entries of `range`. -/
theorem countP_range_lt (s : Nat) :
    ∀ n, (List.range n).countP (fun j => decide (j < s)) = min s n := by
  intro n
  induction n with
  | zero => simp
  | succ n ih =>
    rw [List.range_succ, List.countP_append, ih, List.countP_cons,
      List.countP_nil]
    simp only [decide_eq_true_eq]
    by_cases h : n < s
    · rw [if_pos h]; omega
    · rw [if_neg h]; omega

theorem getD_replicate_bool (b : Bool) (n c : Nat) (h : c < n) :
    (List.replicate n b).getD c false = b := by
  rw [List.getD_eq_getElem?_getD, List.getElem?_replicate, if_pos h,
    Option.getD_some]

theorem getD_map_range (n : Nat) (f : Nat → α) (c : Nat) (d : α)
    (h : c < n) : ((List.range n).map f).getD c d = f c := by
  rw [List.getD_eq_getElem?_getD, List.getElem?_map, List.getElem?_range h,
    Option.map_some', Option.getD_some]

/-- The state `Distribution::run` starts from satisfies the reachable-state
invariant whenever there are at least as many peers as seeds. -/
theorem initSim_inv (config : Config) (ρ : σ)
    (hsp : config.number_seeds ≤ config.number_peers) :
    SimInv (initSim config ρ) := by
  have hplen : (Distribution.new config).peers.length
      = config.number_peers := by
    show ((List.range config.number_peers).map _).length = _
    rw [List.length_map, List.length_range]
  have hclen : (Distribution.new config).chunks.length
      = config.number_chunks := by
    show ((List.range config.number_chunks).map _).length = _
    rw [List.length_map, List.length_range]
  have hpeer : ∀ j < config.number_peers,
      (Distribution.new config).peers.getD j default =
        Peer.new j config.number_chunks (decide (j < config.number_seeds))
          (config.peer_selfishness.getD j default)
          (config.peer_strategies.getD j default)
          (config.peer_speeds.getD j default) := by
    intro j hj
    show ((List.range config.number_peers).map _).getD j default = _
    rw [getD_map_range _ _ _ _ hj]
  have hchunk : ∀ c < config.number_chunks,
      (Distribution.new config).chunks.getD c default =
        Chunk.new c config.number_seeds := by
    intro c hc
    show ((List.range config.number_chunks).map _).getD c default = _
    rw [getD_map_range _ _ _ _ hc]
  refine ⟨?_, ?_, ?_, ?_, ?_, ?_⟩
  · intro j hj
    have hj' : j < config.number_peers := by rw [← hplen]; exact hj
    show ((Distribution.new config).peers.getD j
        default).possessed_chunks.length = (Distribution.new config).chunks.length
    rw [hpeer j hj', hclen]
    exact List.length_replicate _ _
  · intro c hc
    have hc' : c < config.number_chunks := by rw [← hclen]; exact hc
    show ((Distribution.new config).chunks.getD c
        default).number_possessing_peers
      = (Distribution.new config).peers.countP
          (fun p => p.possessed_chunks.getD c false)
    rw [hchunk c hc']
    have h1 : (Distribution.new config).peers.countP
        (fun p => p.possessed_chunks.getD c false)
        = (List.range config.number_peers).countP
            (fun j => decide (j < config.number_seeds)) := by
      show List.countP _ ((List.range config.number_peers).map _) = _
      rw [List.countP_map]
      refine List.countP_congr ?_
      intro j hjmem
      have hcomp : ((fun p => p.possessed_chunks.getD c false) ∘ (fun i =>
          Peer.new i config.number_chunks (decide (i < config.number_seeds))
            (config.peer_selfishness.getD i default)
            (config.peer_strategies.getD i default)
            (config.peer_speeds.getD i default))) j
          = (List.replicate config.number_chunks
              (decide (j < config.number_seeds))).getD c false := rfl
      rw [hcomp, getD_replicate_bool _ _ _ hc']
    rw [h1, countP_range_lt, Nat.min_eq_left hsp]
    rfl
  · intro j hj dl hdl
    have hj' : j < config.number_peers := by rw [← hplen]; exact hj
    have hdl' : dl ∈ ((Distribution.new config).peers.getD j
        default).current_download.toList := hdl
    rw [hpeer j hj'] at hdl'
    have hnone : (Peer.new j config.number_chunks
        (decide (j < config.number_seeds))
        (config.peer_selfishness.getD j default)
        (config.peer_strategies.getD j default)
        (config.peer_speeds.getD j default)).current_download = none := rfl
    rw [hnone] at hdl'
    simp at hdl'
  · show List.Perm ((List.range (Distribution.new config).peers.length).take
        config.number_seeds) (List.range config.number_seeds)
    rw [hplen, List.take_range, Nat.min_eq_left hsp]
  · show List.Perm ((List.range (Distribution.new config).peers.length).drop
        config.number_seeds)
      (List.range' config.number_seeds
        ((Distribution.new config).peers.length - config.number_seeds))
    rw [hplen, drop_range]
  · show List.Perm (List.range (Distribution.new config).chunks.length)
      (List.range (Distribution.new config).chunks.length)
    exact List.Perm.refl _

/-- The terminal state of the tiny one-chunk two-peer run, used to witness
the possession-count theorem on a concrete run. -/
def c4Final : Sim Unit :=
  ((runLoop idShuffler 5 (initSim c3Config ())).toOption).getD default

/-- C4: on every run, at every round boundary each chunk's
`number_possessing_peers` equals exactly the number of peers whose
possession bit for it is set (the `counts` field of `SimInv`), the counter
is monotonically non-decreasing from round to round, and possession bits
only flip from false to true: the start state satisfies the invariant
whenever seeds do not outnumber peers, and both one round and any
non-aborting run of the loop preserve it and only grow counts and bits. -/
theorem possession_counts_exact_and_monotone :
    (∀ (σ : Type) (config : Config) (ρ : σ),
        config.number_seeds ≤ config.number_peers →
        SimInv (initSim config ρ))
    ∧ (∀ (σ : Type) (S : Shuffler σ) (st st' : Sim σ), SimInv st →
        roundStep S st = Except.ok st' →
        SimInv st'
        ∧ (∀ c, chunkCount st.dist c ≤ chunkCount st'.dist c)
        ∧ (∀ j c, peerHasChunk st.dist j c = true →
            peerHasChunk st'.dist j c = true))
    ∧ (∀ (σ : Type) (S : Shuffler σ) (fuel : Nat) (st st' : Sim σ),
        SimInv st →
        runLoop S fuel st = Except.ok st' →
        SimInv st'
        ∧ (∀ c, chunkCount st.dist c ≤ chunkCount st'.dist c)
        ∧ (∀ j c, peerHasChunk st.dist j c = true →
            peerHasChunk st'.dist j c = true)) :=
  ⟨fun _ config ρ hsp => initSim_inv config ρ hsp,
    fun _ S st st' hinv h => roundStep_spec S st st' hinv h,
    fun _ S fuel st st' hinv h => runLoop_mono S fuel st st' hinv h⟩

/-- Witness for C4: the one-chunk two-peer configuration satisfies the
hypotheses; its five-round run is non-aborting and only grows the chunk's
possession count. -/
theorem possession_counts_witness :
    SimInv (initSim c3Config (() : Unit))
    ∧ runLoop idShuffler 5 (initSim c3Config ()) = Except.ok c4Final
    ∧ chunkCount (initSim c3Config ()).dist 0 ≤ chunkCount c4Final.dist 0 := by
  have h1 := possession_counts_exact_and_monotone.1 Unit c3Config ()
    (by decide)
  have hrun : runLoop idShuffler 5 (initSim c3Config ())
      = Except.ok c4Final := by decide
  exact ⟨h1, hrun,
    (possession_counts_exact_and_monotone.2.2 Unit idShuffler 5
      (initSim c3Config ()) c4Final h1 hrun).2.1 0⟩

theorem default_peer_download : (default : Peer).current_download = none := rfl

/-- Attaching a transfer to target `i` and source `src` rewrites only the
target's download slot. -/
theorem downloads_after_attach (P : List Peer) (i src : Nat) (u : Download) :
    ∀ t, ((modifyAt (modifyAt P i
        (fun q => { q with current_download := some u })) src
        (fun q => q.recordUpload u)).getD t default).current_download =
      if t = i ∧ t < P.length then some u
      else (P.getD t default).current_download := by
  intro t
  rw [getD_modifyAt, length_modifyAt]
  by_cases h1 : t = src ∧ t < P.length
  · rw [if_pos h1, recordUpload_download, getD_modifyAt]
    split_ifs with h2 <;> rfl
  · rw [if_neg h1, getD_modifyAt]
    split_ifs with h2 <;> rfl

/-- A source that does not allow uploads offers zero deliverable
capacity. -/
theorem desired_zero_of_not_allows (d : Distribution) (c s t : Nat)
    (h : ¬ (getPeer d s).allowsUpload) :
    desired_download_capacity d c s t = 0 := by
  show min (getPeer d t).speed ((getPeer d s).available_capacity_for_chunk c t)
    = 0
  have hz : (getPeer d s).available_capacity_for_chunk c t = 0 := by
    unfold Peer.available_capacity_for_chunk
    rw [if_neg (fun hx => h hx.1)]
  rw [hz, Nat.min_zero]

/-- The source search only ever commits a source that allows uploads. -/
theorem findSource_allows (d : Distribution) (t c : Nat) :
    ∀ (sources : List Nat) (s cap : Nat),
      findSource d t c sources = some (s, cap) →
      (getPeer d s).allowsUpload := by
  intro sources
  induction sources with
  | nil => intro s cap h; cases h
  | cons y l ih =>
    intro s cap h
    rw [findSource] at h
    split_ifs at h with h0
    · exact ih s cap h
    · simp only [Option.some.injEq, Prod.mk.injEq] at h
      obtain ⟨hy, -⟩ := h
      subst hy
      by_contra hna
      exact h0 (desired_zero_of_not_allows d c y t hna)

/-- The chunk search only ever commits a source that allows uploads. -/
theorem chunkSearch_allows (d : Distribution) (t : Nat) :
    ∀ (cs sources : List Nat) (c s cap : Nat),
      chunkSearch d t cs sources = some (c, s, cap) →
      (getPeer d s).allowsUpload := by
  intro cs
  induction cs with
  | nil => intro _ c s cap h; cases h
  | cons y l ih =>
    intro sources c s cap h
    rw [chunkSearch] at h
    split_ifs at h with hposs
    · exact ih sources c s cap h
    · cases hfs : findSource d t y sources with
      | none =>
        rw [hfs] at h
        exact ih sources c s cap h
      | some pr =>
        rw [hfs] at h
        simp only [Option.some.injEq, Prod.mk.injEq] at h
        obtain ⟨-, hs, -⟩ := h
        subst hs
        exact findSource_allows d t y sources pr.1 pr.2
          (by rw [hfs])

/-- One non-aborting scheduling step never leaves the scheduled position
holding a transfer sourced at a peer that does not allow uploads, and
never creates such a transfer elsewhere: any surviving one was already
there. -/
theorem schedulePeer_nosrc (S : Shuffler σ) (st : Sim σ) (exch i j : Nat)
    (st' : Sim σ) (exch' : Nat) (hinv : SimInv st)
    (hj : ¬ (getPeer st.dist j).allowsUpload)
    (h : schedulePeer S st exch i = Except.ok (st', exch')) :
    ∀ t, ∀ dl' ∈ (st'.dist.peers.getD t default).current_download.toList,
      dl'.source_peer = j →
        t ≠ i ∧ dl' ∈ (st.dist.peers.getD t default).current_download.toList := by
  rw [schedulePeer] at h
  by_cases hcomp : (getPeer st.dist i).completion_round.isSome
  · rw [if_pos hcomp] at h
    simp only [Except.ok.injEq, Prod.mk.injEq] at h
    obtain ⟨hst, -⟩ := h
    subst hst
    intro t dl' hdl' hsrc
    refine ⟨?_, hdl'⟩
    rintro rfl
    rcases Nat.lt_or_ge t st.dist.peers.length with hlt | hge
    · obtain ⟨-, -, -, hcnone, -⟩ := hinv.dlOk t hlt dl' hdl'
      unfold getPeer at hcomp
      rw [hcnone] at hcomp
      simp at hcomp
    · rw [List.getD_eq_default _ _ hge, default_peer_download] at hdl'
      simp at hdl'
  · rw [if_neg hcomp] at h
    cases hdl : (getPeer st.dist i).current_download with
    | some download =>
      rw [hdl] at h
      simp only [] at h
      split_ifs at h with hz
      simp only [Except.ok.injEq, Prod.mk.injEq] at h
      obtain ⟨hst, -⟩ := h
      subst hst
      have hsrcne : download.source_peer ≠ j := by
        intro he
        apply hz
        rw [he, desired_zero_of_not_allows st.dist download.chunk_number j i hj]
        exact Nat.zero_min _
      intro t dl' hdl' hsrc
      rw [show ({ st with
          dist := modifyPeer (modifyPeer st.dist i
            (fun q => { q with current_download := some { download with
              current_size := min (desired_download_capacity st.dist
                  download.chunk_number download.source_peer i)
                (st.dist.chunk_size - download.downloaded_size),
              downloaded_size := download.downloaded_size +
                min (desired_download_capacity st.dist
                    download.chunk_number download.source_peer i)
                  (st.dist.chunk_size - download.downloaded_size) } }))
            download.source_peer
            (fun q => q.recordUpload { download with
              current_size := min (desired_download_capacity st.dist
                  download.chunk_number download.source_peer i)
                (st.dist.chunk_size - download.downloaded_size),
              downloaded_size := download.downloaded_size +
                min (desired_download_capacity st.dist
                    download.chunk_number download.source_peer i)
                  (st.dist.chunk_size - download.downloaded_size) }),
          events := st.events ++ [Event.chunkTransfer download.chunk_number
            (min (desired_download_capacity st.dist download.chunk_number
                download.source_peer i)
              (st.dist.chunk_size - download.downloaded_size))
            download.source_peer download.target_peer] } : Sim σ).dist.peers
        = modifyAt (modifyAt st.dist.peers i
            (fun q => { q with current_download := some { download with
              current_size := min (desired_download_capacity st.dist
                  download.chunk_number download.source_peer i)
                (st.dist.chunk_size - download.downloaded_size),
              downloaded_size := download.downloaded_size +
                min (desired_download_capacity st.dist
                    download.chunk_number download.source_peer i)
                  (st.dist.chunk_size - download.downloaded_size) } }))
            download.source_peer
            (fun q => q.recordUpload { download with
              current_size := min (desired_download_capacity st.dist
                  download.chunk_number download.source_peer i)
                (st.dist.chunk_size - download.downloaded_size),
              downloaded_size := download.downloaded_size +
                min (desired_download_capacity st.dist
                    download.chunk_number download.source_peer i)
                  (st.dist.chunk_size - download.downloaded_size) })
        from rfl, downloads_after_attach] at hdl'
      by_cases hcase : t = i ∧ t < st.dist.peers.length
      · rw [if_pos hcase] at hdl'
        simp only [Option.toList_some, List.mem_singleton] at hdl'
        subst hdl'
        exact absurd hsrc hsrcne
      · rw [if_neg hcase] at hdl'
        refine ⟨?_, hdl'⟩
        rintro rfl
        have hge : st.dist.peers.length ≤ t := by
          by_contra hlt
          exact hcase ⟨rfl, by omega⟩
        unfold getPeer at hdl
        rw [List.getD_eq_default _ _ hge, default_peer_download] at hdl
        exact Option.noConfusion hdl
    | none =>
      rw [hdl] at h
      simp only [] at h
      split at h
      · rename_i c s cap heq
        simp only [Except.ok.injEq, Prod.mk.injEq] at h
        obtain ⟨hst, -⟩ := h
        subst hst
        have hsne : s ≠ j := fun he =>
          hj (he ▸ chunkSearch_allows st.dist i _ _ c s cap heq)
        intro t dl' hdl' hsrc
        rw [show (commitDownload st.dist i c s cap).peers
            = modifyAt (modifyAt st.dist.peers i
              (fun q => { q with current_download := some (
                { chunk_number := c, source_peer := s, target_peer := i,
                  downloaded_size := cap, current_size := cap } : Download) })) s
              (fun q => q.recordUpload
                { chunk_number := c, source_peer := s, target_peer := i,
                  downloaded_size := cap, current_size := cap })
          from rfl, downloads_after_attach] at hdl'
        by_cases hcase : t = i ∧ t < st.dist.peers.length
        · rw [if_pos hcase] at hdl'
          simp only [Option.toList_some, List.mem_singleton] at hdl'
          subst hdl'
          exact absurd hsrc hsne
        · rw [if_neg hcase] at hdl'
          refine ⟨?_, hdl'⟩
          rintro rfl
          rcases Nat.lt_or_ge t st.dist.peers.length with hlt | hge
          · unfold getPeer at hdl
            rw [hdl] at hdl'
            simp at hdl'
          · rw [List.getD_eq_default _ _ hge, default_peer_download] at hdl'
            simp at hdl'
      · simp only [Except.ok.injEq, Prod.mk.injEq] at h
        obtain ⟨hst, -⟩ := h
        subst hst
        intro t dl' hdl' hsrc
        refine ⟨?_, hdl'⟩
        rintro rfl
        unfold getPeer at hdl
        rw [hdl] at hdl'
        simp at hdl'

/-- Iterating the scheduling step over the whole order: any surviving
transfer sourced at a non-uploading peer was present at the start and its
holder was never scheduled. -/
theorem schedulePeers_nosrc (S : Shuffler σ) (j : Nat) :
    ∀ (order : List Nat) (st : Sim σ) (exch : Nat) (st' : Sim σ)
      (exch' : Nat),
      (∀ i ∈ order, st.dist.number_seeds ≤ i) → SimInv st →
      ¬ (getPeer st.dist j).allowsUpload →
      schedulePeers S order st exch = Except.ok (st', exch') →
      ∀ t, ∀ dl' ∈ (st'.dist.peers.getD t default).current_download.toList,
        dl'.source_peer = j →
          t ∉ order
          ∧ dl' ∈ (st.dist.peers.getD t default).current_download.toList := by
  intro order
  induction order with
  | nil =>
    intro st exch st' exch' hseeds hinv hj h
    rw [schedulePeers] at h
    simp only [Except.ok.injEq, Prod.mk.injEq] at h
    obtain ⟨hst, -⟩ := h
    subst hst
    intro t dl' hdl' hsrc
    exact ⟨List.not_mem_nil t, hdl'⟩
  | cons i rest ih =>
    intro st exch st' exch' hseeds hinv hj h
    rw [schedulePeers] at h
    cases hsp : schedulePeer S st exch i with
    | error e => rw [hsp] at h; cases h
    | ok pr =>
      rw [hsp] at h
      have hinv1 := schedulePeer_inv S st exch i pr.1 pr.2
        (hseeds i (List.mem_cons_self _ _)) hinv hsp
      obtain ⟨-, hpc, hsd, -, -, -, -, -⟩ :=
        schedulePeer_frame S st exch i pr.1 pr.2 hsp
      have hfe := core_fields_eq pr.1.dist.peers st.dist.peers hpc j
      have hj1 : ¬ (getPeer pr.1.dist j).allowsUpload := by
        unfold getPeer Peer.allowsUpload at hj ⊢
        rw [hfe.1, hfe.2.1]
        exact hj
      have hseeds1 : ∀ k ∈ rest, pr.1.dist.number_seeds ≤ k := by
        intro k hk
        rw [hsd]
        exact hseeds k (List.mem_cons_of_mem _ hk)
      intro t dl' hdl' hsrc
      obtain ⟨hnr, hmem1⟩ :=
        ih pr.1 pr.2 st' exch' hseeds1 hinv1 hj1 h t dl' hdl' hsrc
      obtain ⟨hne, hmem0⟩ :=
        schedulePeer_nosrc S st exch i j pr.1 pr.2 hinv hj hsp t dl' hmem1 hsrc
      exact ⟨fun hx => (List.mem_cons.mp hx).elim (fun hx' => hne hx') hnr,
        hmem0⟩

/-- After a non-aborting scheduling phase, no peer holds a transfer
sourced at a peer that does not allow uploads: a fresh one is never
created, and a pre-existing one makes its holder's continuation abort
when the holder is scheduled (every non-seed is). -/
theorem roundScheduled_nosrc (S : Shuffler σ) (st st₁ : Sim σ)
    (exch j : Nat) (hinv : SimInv st)
    (hj : ¬ (getPeer st.dist j).allowsUpload)
    (h : roundScheduled S st = Except.ok (st₁, exch)) :
    ∀ t, t < st₁.dist.peers.length →
      ∀ dl' ∈ (st₁.dist.peers.getD t default).current_download.toList,
        dl'.source_peer ≠ j := by
  rw [roundScheduled] at h
  simp only [] at h
  have htakelen : (st.shuffled.take st.dist.number_seeds).length =
      st.dist.number_seeds := by
    rw [hinv.shufSeed.length_eq, List.length_range]
  have ha := applyShuffle_perm S st.rho (st.shuffled.take st.dist.number_seeds)
  have hb := applyShuffle_perm S
    (applyShuffle S st.rho (st.shuffled.take st.dist.number_seeds)).2
    (st.shuffled.drop st.dist.number_seeds)
  have halen : (applyShuffle S st.rho
      (st.shuffled.take st.dist.number_seeds)).1.length =
      st.dist.number_seeds := by
    rw [ha.length_eq, htakelen]
  have htake : ((applyShuffle S st.rho
        (st.shuffled.take st.dist.number_seeds)).1
      ++ (applyShuffle S
        (applyShuffle S st.rho (st.shuffled.take st.dist.number_seeds)).2
        (st.shuffled.drop st.dist.number_seeds)).1).take st.dist.number_seeds =
      (applyShuffle S st.rho (st.shuffled.take st.dist.number_seeds)).1 :=
    List.take_left' halen
  have hdrop : ((applyShuffle S st.rho
        (st.shuffled.take st.dist.number_seeds)).1
      ++ (applyShuffle S
        (applyShuffle S st.rho (st.shuffled.take st.dist.number_seeds)).2
        (st.shuffled.drop st.dist.number_seeds)).1).drop st.dist.number_seeds =
      (applyShuffle S
        (applyShuffle S st.rho (st.shuffled.take st.dist.number_seeds)).2
        (st.shuffled.drop st.dist.number_seeds)).1 :=
    List.drop_left' halen
  have hinv0 : SimInv ({ st with
      events := st.events ++ [Event.roundStart st.rounds.length],
      shuffled := (applyShuffle S st.rho
          (st.shuffled.take st.dist.number_seeds)).1
        ++ (applyShuffle S
          (applyShuffle S st.rho (st.shuffled.take st.dist.number_seeds)).2
          (st.shuffled.drop st.dist.number_seeds)).1,
      temp := sortByKey
        (fun c => (getChunk st.dist c).number_possessing_peers) st.temp,
      rho := (applyShuffle S
        (applyShuffle S st.rho (st.shuffled.take st.dist.number_seeds)).2
        (st.shuffled.drop st.dist.number_seeds)).2 } : Sim σ) := by
    refine ⟨hinv.possLen, hinv.counts, hinv.dlOk, ?_, ?_, ?_⟩
    · show List.Perm (List.take st.dist.number_seeds _) _
      rw [htake]
      exact ha.trans hinv.shufSeed
    · show List.Perm (List.drop st.dist.number_seeds _) _
      rw [hdrop]
      exact hb.trans hinv.shufRest
    · exact (sortByKey_perm _ _).trans hinv.tempPerm
  have horder : ∀ i ∈ ((applyShuffle S st.rho
        (st.shuffled.take st.dist.number_seeds)).1
      ++ (applyShuffle S
        (applyShuffle S st.rho (st.shuffled.take st.dist.number_seeds)).2
        (st.shuffled.drop st.dist.number_seeds)).1).drop st.dist.number_seeds,
      st.dist.number_seeds ≤ i := by
    intro i hi
    rw [hdrop] at hi
    have : i ∈ List.range' st.dist.number_seeds
        (st.dist.peers.length - st.dist.number_seeds) :=
      (hb.trans hinv.shufRest).mem_iff.mp hi
    exact (List.mem_range'_1.mp this).1
  have hlen1 : st₁.dist.peers.length = st.dist.peers.length := by
    obtain ⟨-, f2, -, -, -, -, -, -⟩ := schedulePeers_frame S _ _ 0 st₁ exch h
    rw [← List.length_map st₁.dist.peers peerCore, f2, List.length_map]
  intro t ht dl' hdl' hsrc
  obtain ⟨hnotin, hmem⟩ := schedulePeers_nosrc S j _ ({ st with
      events := st.events ++ [Event.roundStart st.rounds.length],
      shuffled := (applyShuffle S st.rho
          (st.shuffled.take st.dist.number_seeds)).1
        ++ (applyShuffle S
          (applyShuffle S st.rho (st.shuffled.take st.dist.number_seeds)).2
          (st.shuffled.drop st.dist.number_seeds)).1,
      temp := sortByKey
        (fun c => (getChunk st.dist c).number_possessing_peers) st.temp,
      rho := (applyShuffle S
        (applyShuffle S st.rho (st.shuffled.take st.dist.number_seeds)).2
        (st.shuffled.drop st.dist.number_seeds)).2 } : Sim σ)
    0 st₁ exch horder hinv0 hj h t dl' hdl' hsrc
  have ht' : t < st.dist.peers.length := by rw [← hlen1]; exact ht
  obtain ⟨-, -, -, -, hseedt⟩ := hinv.dlOk t ht' dl' hmem
  apply hnotin
  rw [hdrop]
  exact (hb.trans hinv.shufRest).mem_iff.mpr
    (List.mem_range'_1.mpr ⟨hseedt, by omega⟩)

/-- One full non-aborting round neither increments the upload counter of a
peer that does not allow uploads, nor makes such a peer start allowing
them. -/
theorem roundStep_frozen (S : Shuffler σ) (st st' : Sim σ) (j : Nat)
    (hinv : SimInv st)
    (hj : ¬ (st.dist.peers.getD j default).allowsUpload)
    (h : roundStep S st = Except.ok st') :
    (st'.dist.peers.getD j default).number_uploads
      = (st.dist.peers.getD j default).number_uploads
    ∧ ¬ (st'.dist.peers.getD j default).allowsUpload
    ∧ SimInv st' := by
  rw [roundStep] at h
  cases hrs : roundScheduled S st with
  | error e => rw [hrs] at h; cases h
  | ok pr =>
    obtain ⟨st₁, exch⟩ := pr
    rw [hrs] at h
    simp only [Except.ok.injEq] at h
    subst h
    obtain ⟨hinv₁, -, hpc, -, -, -, -⟩ :=
      roundScheduled_inv S st st₁ exch hinv hrs
    have hfe := core_fields_eq st₁.dist.peers st.dist.peers hpc j
    have hj1 : ¬ (st₁.dist.peers.getD j default).allowsUpload := by
      unfold Peer.allowsUpload at hj ⊢
      rw [hfe.1, hfe.2.1]
      exact hj
    have hnos := roundScheduled_nosrc S st st₁ exch j hinv hj hrs
    obtain ⟨RF1, -, -, RFself, RFcomp, RFups⟩ := roundFinish_spec st₁ exch hinv₁
    refine ⟨?_, ?_, RF1⟩
    · rw [RFups j hnos, hfe.2.2.2.1]
    · unfold Peer.allowsUpload at hj1 ⊢
      rw [RFself j]
      rcases RFcomp j with hc | hc
      · rw [hc]
        exact hj1
      · rw [hc]
        rintro (hab | ⟨hs, hn⟩)
        · exact hj1 (Or.inl hab)
        · exact Option.noConfusion hn

/-- The whole fuelled loop, on its non-aborting runs, never increments the
upload counter of a peer that does not allow uploads at entry. -/
theorem runLoop_frozen (S : Shuffler σ) (j : Nat) :
    ∀ (fuel : Nat) (st st' : Sim σ), SimInv st →
      ¬ (st.dist.peers.getD j default).allowsUpload →
      runLoop S fuel st = Except.ok st' →
      (st'.dist.peers.getD j default).number_uploads
        = (st.dist.peers.getD j default).number_uploads := by
  intro fuel
  induction fuel with
  | zero =>
    intro st st' hinv hj h
    rw [runLoop] at h
    simp only [Except.ok.injEq] at h
    subst h
    rfl
  | succ fuel ih =>
    intro st st' hinv hj h
    rw [runLoop] at h
    split_ifs at h with hguard
    · cases hstep : roundStep S st with
      | error e => rw [hstep] at h; cases h
      | ok st₁ =>
        rw [hstep] at h
        obtain ⟨hups, hj1, hinv1⟩ := roundStep_frozen S st st₁ j hinv hj hstep
        rw [ih st₁ st' hinv1 hj1 h, hups]
    · simp only [Except.ok.injEq] at h
      subst h
      rfl

/-- The witness configuration for the upload-freeze theorem: 1 chunk,
3 peers, 1 seed, all speed tiers 1; peer 1 Altruistic (`ars`), peer 2
Freerider (`frs`). -/
def c8wConfig : Config := (Config.from_peer_config 1 3 1 1 1 1
  [PeerConfig.from_string [97, 114, 115],
   PeerConfig.from_string [102, 114, 115]]).getD default

/-- The terminal state of the witness run above. -/
def c8wFinal : Sim Unit :=
  ((runLoop idShuffler 10 (initSim c8wConfig ())).toOption).getD default

/-- C8 (amended): every peer starts with a zero upload counter; and on any
non-aborting continuation of a run from an invariant round boundary, the
upload counter of a Freerider, and of a Selfish peer whose completion
round is already recorded at that boundary, never changes.  (Within the
very round that records a Selfish peer's completion the counter can still
be incremented after the recording — see the counterexample theorem.) -/
theorem uploads_frozen_after_completion :
    (∀ (σ : Type) (config : Config) (ρ : σ) (t : Nat),
        ((initSim config ρ).dist.peers.getD t default).number_uploads = 0)
    ∧ (∀ (σ : Type) (S : Shuffler σ) (fuel : Nat) (st st' : Sim σ) (j : Nat),
        SimInv st →
        ((st.dist.peers.getD j default).selfishness = Selfishness.Freerider
          ∨ ((st.dist.peers.getD j default).selfishness = Selfishness.Selfish
              ∧ (st.dist.peers.getD j default).completion_round.isSome)) →
        runLoop S fuel st = Except.ok st' →
        (st'.dist.peers.getD j default).number_uploads
          = (st.dist.peers.getD j default).number_uploads) := by
  constructor
  · intro σ config ρ t
    show (((List.range config.number_peers).map (fun i =>
        Peer.new i config.number_chunks (decide (i < config.number_seeds))
          (config.peer_selfishness.getD i default)
          (config.peer_strategies.getD i default)
          (config.peer_speeds.getD i default))).getD t
        default).number_uploads = 0
    rcases Nat.lt_or_ge t config.number_peers with hlt | hge
    · rw [getD_map_range _ _ _ _ hlt]
      rfl
    · rw [List.getD_eq_default _ _ (by simpa using hge)]
      rfl
  · intro σ S fuel st st' j hinv hpol hrun
    have hj : ¬ (st.dist.peers.getD j default).allowsUpload := by
      rintro (hab | ⟨hs, hn⟩)
      · rcases hpol with hfr | ⟨hself, -⟩
        · rw [hfr] at hab
          cases hab
        · rw [hself] at hab
          cases hab
      · rcases hpol with hfr | ⟨-, hsome⟩
        · rw [hfr] at hs
          cases hs
        · rw [hn] at hsome
          simp at hsome
    exact runLoop_frozen S j fuel st st' hinv hj hrun

/-- Witness for the amended C8 theorem: in the 1-chunk 3-peer run with a
Freerider at position 2, the Freerider's counter is 0 at the start and
unchanged by the full non-aborting run. -/
theorem uploads_frozen_witness :
    ((initSim c8wConfig (() : Unit)).dist.peers.getD 2
        default).number_uploads = 0
    ∧ runLoop idShuffler 10 (initSim c8wConfig ()) = Except.ok c8wFinal
    ∧ (c8wFinal.dist.peers.getD 2 default).number_uploads
      = ((initSim c8wConfig ()).dist.peers.getD 2 default).number_uploads := by
  have hrun : runLoop idShuffler 10 (initSim c8wConfig ())
      = Except.ok c8wFinal := by decide
  exact ⟨uploads_frozen_after_completion.1 Unit c8wConfig () 2, hrun,
    uploads_frozen_after_completion.2 Unit idShuffler 10
      (initSim c8wConfig ()) c8wFinal 2
      (initSim_inv c8wConfig () (by decide)) (Or.inl (by decide)) hrun⟩

end Coppa
